import Mathlib

/-!
# Verification of the base-building game core

Shallow embedding of the resource/economy engine, the sector generator and the
arena engine of the repository (sources: `src/app/game/page.tsx`,
`src/app/game/sector/[id]/page.tsx`).  JavaScript numbers are modelled as `Nat`
(all quantities involved are non-negative integers; `Math.max(0, a - b)` is
truncated subtraction) and as `Int` for the half-cell arena coordinates.
JavaScript `Record`s with numeric keys are modelled as association lists; only
`lookup`, pointwise update, deletion and the sum of values are observed, which
are order-independent.
-/

/-! ## Building catalog (`cellValueMap` in both pages) -/

structure CellDef where
  name : String
  level : Option Nat
deriving DecidableEq, Repr

def cellValueMap : List CellDef :=
  [ ⟨"", none⟩,
    ⟨"grid-hall", some 1⟩,
    ⟨"bit-storage", some 1⟩,
    ⟨"bit-mine", some 1⟩,
    ⟨"grid-hall", some 2⟩,
    ⟨"bit-storage", some 2⟩,
    ⟨"bit-mine", some 2⟩,
    ⟨"bit-mine", some 3⟩,
    ⟨"lab", some 1⟩,
    ⟨"portal", some 1⟩ ]

/-- `cellValueMap[v]?.name`: out-of-range codes behave like the empty cell. -/
def nameOf (v : Nat) : String :=
  ((cellValueMap.get? v).map CellDef.name).getD ""

/-- `cellValueMap[v]?.level ?? 1`. -/
def levelOfCode (v : Nat) : Nat :=
  ((cellValueMap.get? v).bind CellDef.level).getD 1

/-- `getCellValueByName` (`findIndex`, `-1` when absent). -/
def cellCodeOf (name : String) (level : Nat) : Int :=
  match cellValueMap.findIdx? (fun d => d.name = name ∧ d.level.getD 1 = level) with
  | some i => (i : Int)
  | none => -1

/-- `def?.name.includes("storage")` — substring test on the cell's name. -/
def isStorageName (v : Nat) : Bool :=
  decide ("storage".data <:+: (nameOf v).data)

def bitStorageCapacityPerLevel : Nat := 2000

/-- `totalStorageCapacity`: sum of `level * 2000` over storage cells. -/
def totalStorageCapacity : List Nat → Nat
  | [] => 0
  | c :: r =>
    (if isStorageName c then levelOfCode c * bitStorageCapacityPerLevel else 0) +
      totalStorageCapacity r

/-- `placedCountsByItem[name] ?? 0`: cells of the grid whose catalog name is `n`. -/
def placedCount : List Nat → String → Nat
  | [], _ => 0
  | c :: r, n => (if nameOf c = n then 1 else 0) + placedCount r n

/-! ## Uncollected-yield map (`mineUncollected`, a `Record<number, number>`) -/

abbrev UncMap := List (Nat × Nat)

/-- Lookup of a key (`u[k]`, `none` when the key is absent). -/
def getEntry : UncMap → Nat → Option Nat
  | [], _ => none
  | (k', v) :: r, k => if k' = k then some v else getEntry r k

/-- `u[k] ?? 0`. -/
def getU (u : UncMap) (k : Nat) : Nat :=
  (getEntry u k).getD 0

/-- `u[k] = v`: update the entry in place, or create it. -/
def setU : UncMap → Nat → Nat → UncMap
  | [], k, v => [(k, v)]
  | (k', v') :: r, k, v => if k' = k then (k, v) :: r else (k', v') :: setU r k v

/-- `delete u[k]`. -/
def eraseU : UncMap → Nat → UncMap
  | [], _ => []
  | (k', v') :: r, k => if k' = k then eraseU r k else (k', v') :: eraseU r k

/-- `Object.values(u).reduce((a, b) => a + b, 0)`. -/
def sumU : UncMap → Nat
  | [] => 0
  | (_, v) :: r => v + sumU r

theorem getEntry_setU_self (u : UncMap) (k v : Nat) :
    getEntry (setU u k v) k = some v := by
  induction u with
  | nil => simp [setU, getEntry]
  | cons e r ih =>
    obtain ⟨k', v'⟩ := e
    by_cases h : k' = k
    · simp [setU, h, getEntry]
    · simp [setU, h, getEntry, ih]

theorem getEntry_setU_ne (u : UncMap) (k v j : Nat) (h : j ≠ k) :
    getEntry (setU u k v) j = getEntry u j := by
  induction u with
  | nil => simp [setU, getEntry, Ne.symm h]
  | cons e r ih =>
    obtain ⟨k', v'⟩ := e
    by_cases hk : k' = k
    · subst hk
      simp [setU, getEntry, Ne.symm h]
    · simp [setU, hk, getEntry, ih]

theorem getEntry_eraseU_self (u : UncMap) (k : Nat) :
    getEntry (eraseU u k) k = none := by
  induction u with
  | nil => simp [eraseU, getEntry]
  | cons e r ih =>
    obtain ⟨k', v'⟩ := e
    by_cases h : k' = k
    · simp [eraseU, h, ih]
    · simp [eraseU, h, getEntry, ih]

theorem getEntry_eraseU_ne (u : UncMap) (k j : Nat) (h : j ≠ k) :
    getEntry (eraseU u k) j = getEntry u j := by
  induction u with
  | nil => simp [eraseU]
  | cons e r ih =>
    obtain ⟨k', v'⟩ := e
    by_cases hk : k' = k
    · subst hk
      simp [eraseU, getEntry, Ne.symm h, ih]
    · simp [eraseU, hk, getEntry, ih]

theorem sumU_setU_add (u : UncMap) (k d : Nat) :
    sumU (setU u k (getU u k + d)) = sumU u + d := by
  induction u with
  | nil => simp [setU, sumU, getU, getEntry]
  | cons e r ih =>
    obtain ⟨k', v'⟩ := e
    by_cases h : k' = k
    · simp [setU, h, sumU, getU, getEntry]
      omega
    · have : getU ((k', v') :: r) k = getU r k := by
        simp [getU, getEntry, h]
      rw [this] at *
      simp [setU, h, sumU, ih]
      omega

theorem sumU_setU_eq (u : UncMap) (k v : Nat) :
    sumU (setU u k v) + getU u k = sumU u + v := by
  induction u with
  | nil => simp [setU, sumU, getU, getEntry]
  | cons e r ih =>
    obtain ⟨k', v'⟩ := e
    by_cases h : k' = k
    · simp [setU, h, sumU, getU, getEntry]
      omega
    · have hg : getU ((k', v') :: r) k = getU r k := by
        simp [getU, getEntry, h]
      simp only [setU, h, if_false, sumU, hg]
      omega

theorem sumU_eraseU_le (u : UncMap) (k : Nat) :
    sumU (eraseU u k) + getU u k ≤ sumU u := by
  induction u with
  | nil => simp [eraseU, sumU, getU, getEntry]
  | cons e r ih =>
    obtain ⟨k', v'⟩ := e
    by_cases h : k' = k
    · subst h
      have h2 : sumU (eraseU r k') ≤ sumU r := by omega
      simp [eraseU, sumU, getU, getEntry]
      omega
    · have : getU ((k', v') :: r) k = getU r k := by
        simp [getU, getEntry, h]
      simp [eraseU, h, sumU, this]
      omega

/-! ## Production tick (`useEffect` interval in `src/app/game/page.tsx`) -/

/-- The `mines` array built by `grid.forEach` in the production tick:
`(index, level)` for every cell whose catalog name is `"bit-mine"`, in grid
order starting at index `i`. -/
def minesAux : List Nat → Nat → List (Nat × Nat)
  | [], _ => []
  | c :: r, i =>
    if nameOf c = "bit-mine" then (i, levelOfCode c) :: minesAux r (i + 1)
    else minesAux r (i + 1)

def minesOf (grid : List Nat) : List (Nat × Nat) :=
  minesAux grid 0

/-- The `for (const m of mines)` loop: credit `min(10 * level, remaining)` to
each mine, breaking once the remaining capacity is zero.  Returns the updated
map together with the final remaining capacity. -/
def distribute : List (Nat × Nat) → Nat → UncMap → UncMap × Nat
  | [], rc, u => (u, rc)
  | (i, lv) :: ms, rc, u =>
    if rc = 0 then (u, rc)
    else
      let delta := min (10 * lv) rc
      distribute ms (rc - delta) (setU u i (getU u i + delta))

/-- One production tick (the `setInterval` body, lines 248-278 of
`src/app/game/page.tsx`).  `Nat` comparisons render the JS `<= 0` / `>=`
guards exactly. -/
def productionTick (grid : List Nat) (bits : Nat) (u : UncMap) : UncMap :=
  let cap := totalStorageCapacity grid
  if cap = 0 then u
  else
    let currentTotal := bits + sumU u
    if cap ≤ currentTotal then u
    else
      let mines := minesOf grid
      if mines = [] then u
      else
        let rc := cap - currentTotal
        if rc = 0 then u
        else
          let next := distribute mines rc u
          if next.2 ≠ rc then next.1 else u

/-- The Collect button handler (lines 448-468 of `src/app/game/page.tsx`);
`Math.max(0, cap - bits)` is `Nat` subtraction. -/
def collectOp (grid : List Nat) (idx bits : Nat) (u : UncMap) : Nat × UncMap :=
  let amount := getU u idx
  if amount = 0 then (bits, u)
  else
    let capacityLeft := totalStorageCapacity grid - bits
    let toCollect := min amount capacityLeft
    if toCollect = 0 then (bits, u)
    else
      let newVal := getU u idx - toCollect
      (bits + toCollect, if newVal = 0 then eraseU u idx else setU u idx newVal)

/-- Operations of the economy loop touching the pool and the yield map. -/
inductive EconOp where
  | tick
  | collect (idx : Nat)
deriving DecidableEq, Repr

def applyEconOp (grid : List Nat) : Nat × UncMap → EconOp → Nat × UncMap
  | (b, u), .tick => (b, productionTick grid b u)
  | (b, u), .collect i => collectOp grid i b u

def applyEconOps (grid : List Nat) : Nat × UncMap → List EconOp → Nat × UncMap
  | s, [] => s
  | s, op :: ops => applyEconOps grid (applyEconOp grid s op) ops

theorem distribute_sum (ms : List (Nat × Nat)) (rc : Nat) (u : UncMap) :
    sumU (distribute ms rc u).1 + (distribute ms rc u).2 = sumU u + rc ∧
      (distribute ms rc u).2 ≤ rc := by
  induction ms generalizing rc u with
  | nil => simp [distribute]
  | cons m ms ih =>
    obtain ⟨i, lv⟩ := m
    by_cases h : rc = 0
    · simp [distribute, h]
    · have hd : min (10 * lv) rc ≤ rc := Nat.min_le_right _ _
      have := ih (rc - min (10 * lv) rc) (setU u i (getU u i + min (10 * lv) rc))
      rw [sumU_setU_add] at this
      simp only [distribute, h, if_false]
      refine ⟨?_, ?_⟩
      · omega
      · omega

theorem productionTick_bounded (grid : List Nat) (bits : Nat) (u : UncMap)
    (h : bits + sumU u ≤ totalStorageCapacity grid) :
    bits + sumU (productionTick grid bits u) ≤ totalStorageCapacity grid := by
  simp only [productionTick]
  split_ifs with h0 h1 h2 h3 h4
  · exact h
  · exact h
  · exact h
  · exact h
  · have hs := distribute_sum (minesOf grid)
      (totalStorageCapacity grid - (bits + sumU u)) u
    omega
  · exact h

theorem collectOp_total_le (grid : List Nat) (idx bits : Nat) (u : UncMap) :
    (collectOp grid idx bits u).1 + sumU (collectOp grid idx bits u).2 ≤ bits + sumU u := by
  simp only [collectOp]
  split_ifs with h0 h1 h2
  · simp
  · simp
  · dsimp only
    have h3 := sumU_eraseU_le u idx
    have h4 : min (getU u idx) (totalStorageCapacity grid - bits) ≤ getU u idx :=
      Nat.min_le_left _ _
    omega
  · dsimp only
    have h3 := sumU_setU_eq u idx
      (getU u idx - min (getU u idx) (totalStorageCapacity grid - bits))
    have h4 : min (getU u idx) (totalStorageCapacity grid - bits) ≤ getU u idx :=
      Nat.min_le_left _ _
    omega

theorem applyEconOp_bounded (grid : List Nat) (s : Nat × UncMap) (op : EconOp)
    (h : s.1 + sumU s.2 ≤ totalStorageCapacity grid) :
    (applyEconOp grid s op).1 + sumU (applyEconOp grid s op).2 ≤ totalStorageCapacity grid := by
  obtain ⟨b, u⟩ := s
  cases op with
  | tick => simpa [applyEconOp] using productionTick_bounded grid b u h
  | collect i =>
    have h2 := collectOp_total_le grid i b u
    simp only [applyEconOp]
    exact le_trans h2 h

/-- C1: starting from any state satisfying the storage invariant
`pool + Σ uncollected ≤ totalStorageCapacity`, the invariant still holds after
any sequence of production ticks and collections. -/
theorem econ_invariant_after_ops (grid : List Nat) (ops : List EconOp) (bits : Nat) (u : UncMap)
    (h : bits + sumU u ≤ totalStorageCapacity grid) :
    (applyEconOps grid (bits, u) ops).1 + sumU (applyEconOps grid (bits, u) ops).2 ≤
      totalStorageCapacity grid := by
  suffices hgen : ∀ (ops : List EconOp) (s : Nat × UncMap),
      s.1 + sumU s.2 ≤ totalStorageCapacity grid →
      (applyEconOps grid s ops).1 + sumU (applyEconOps grid s ops).2 ≤
        totalStorageCapacity grid by
    exact hgen ops (bits, u) h
  intro ops
  induction ops with
  | nil => intro s hs; simpa [applyEconOps] using hs
  | cons op rest ih =>
    intro s hs
    simp only [applyEconOps]
    exact ih _ (applyEconOp_bounded grid s op hs)

/-- Witness for C1 at a concrete state: a storage at cell 0, a mine at cell 1,
one tick followed by a collect at the mine. -/
theorem econ_invariant_after_ops_witness :
    (0 : Nat) + sumU ([] : UncMap) ≤ totalStorageCapacity [2, 3] ∧
      (applyEconOps [2, 3] (0, []) [EconOp.tick, EconOp.collect 1]).1 +
        sumU (applyEconOps [2, 3] (0, []) [EconOp.tick, EconOp.collect 1]).2 ≤
        totalStorageCapacity [2, 3] :=
  ⟨by decide, econ_invariant_after_ops [2, 3] [EconOp.tick, EconOp.collect 1] 0 [] (by decide)⟩

/-! ## C2: the tick against the spec's wording -/

/-- Remaining-capacity credit walk written directly from the spec's sentence:
visit the cells in ascending grid-index order, credit every producer
`min(10 × level, remainingCapacity)` and stop once the remaining capacity
reaches zero. -/
def creditCells : List Nat → Nat → Nat → UncMap → UncMap
  | [], _, _, u => u
  | c :: r, i, rc, u =>
    if rc = 0 then u
    else if nameOf c = "bit-mine" then
      creditCells r (i + 1) (rc - min (10 * levelOfCode c) rc)
        (setU u i (getU u i + min (10 * levelOfCode c) rc))
    else creditCells r (i + 1) rc u

/-- "a producer cell exists". -/
def hasProducer (grid : List Nat) : Bool :=
  grid.any (fun c => nameOf c = "bit-mine")

/-- The production tick as the spec describes it: a no-op when capacity is
already exhausted or no producers exist, otherwise the ascending-index credit
walk with initial remaining capacity `total − pool − Σ uncollected`. -/
def tickSpec (grid : List Nat) (bits : Nat) (u : UncMap) : UncMap :=
  if hasProducer grid = false then u
  else if totalStorageCapacity grid ≤ bits + sumU u then u
  else creditCells grid 0 (totalStorageCapacity grid - (bits + sumU u)) u

theorem distribute_zero (ms : List (Nat × Nat)) (u : UncMap) :
    distribute ms 0 u = (u, 0) := by
  cases ms with
  | nil => simp [distribute]
  | cons m ms => obtain ⟨i, lv⟩ := m; simp [distribute]

theorem distribute_minesAux_eq_credit (l : List Nat) (i rc : Nat) (u : UncMap) :
    (distribute (minesAux l i) rc u).1 = creditCells l i rc u := by
  induction l generalizing i rc u with
  | nil => simp [minesAux, distribute, creditCells]
  | cons c r ih =>
    by_cases hm : nameOf c = "bit-mine"
    · by_cases hrc : rc = 0
      · subst hrc
        simp [minesAux, hm, distribute, creditCells, distribute_zero]
      · simp only [minesAux, hm, if_true, distribute, hrc, if_false, creditCells, ih]
    · by_cases hrc : rc = 0
      · subst hrc
        simp [minesAux, hm, creditCells, distribute_zero, ih]
      · simp only [minesAux, hm, if_false, creditCells, hrc, if_false, ih]

theorem minesAux_nil_iff (l : List Nat) (i : Nat) :
    minesAux l i = [] ↔ hasProducer l = false := by
  induction l generalizing i with
  | nil => simp [minesAux, hasProducer]
  | cons c r ih =>
    by_cases hm : nameOf c = "bit-mine"
    · simp [minesAux, hm, hasProducer]
    · simp [minesAux, hm, hasProducer, ih]

theorem one_le_levelOfCode (c : Nat) : 1 ≤ levelOfCode c := by
  by_cases h : c < 10
  · interval_cases c <;> decide
  · have hn : cellValueMap.get? c = none := by
      apply List.get?_eq_none.mpr
      simp only [cellValueMap, List.length]
      omega
    unfold levelOfCode
    rw [hn]
    simp

theorem minesAux_levels (l : List Nat) (i : Nat) :
    ∀ p ∈ minesAux l i, 1 ≤ p.2 := by
  induction l generalizing i with
  | nil => simp [minesAux]
  | cons c r ih =>
    intro p hp
    by_cases hm : nameOf c = "bit-mine"
    · simp only [minesAux, hm, if_true, List.mem_cons] at hp
      rcases hp with h | h
      · subst h; exact one_le_levelOfCode c
      · exact ih (i + 1) p h
    · simp only [minesAux, hm, if_false] at hp
      exact ih (i + 1) p hp

theorem distribute_changes (ms : List (Nat × Nat)) (rc : Nat) (u : UncMap)
    (hms : ms ≠ []) (hlv : ∀ p ∈ ms, 1 ≤ p.2) (hrc : rc ≠ 0) :
    (distribute ms rc u).2 ≠ rc := by
  cases ms with
  | nil => exact absurd rfl hms
  | cons m ms =>
    obtain ⟨i, lv⟩ := m
    have hl : 1 ≤ lv := hlv (i, lv) (List.mem_cons_self _ _)
    simp only [distribute, hrc, if_false]
    have hs := (distribute_sum ms (rc - min (10 * lv) rc)
      (setU u i (getU u i + min (10 * lv) rc))).2
    omega

/-- C2: the implemented production tick coincides with the spec's description
of one tick (ascending grid-index credit of `min(rate, remaining)`, early stop
at zero remaining capacity, no-op on exhausted capacity or no mines). -/
theorem production_tick_matches_spec (grid : List Nat) (bits : Nat) (u : UncMap) :
    productionTick grid bits u = tickSpec grid bits u := by
  simp only [productionTick, tickSpec]
  by_cases h0 : totalStorageCapacity grid = 0
  · simp only [h0, if_true]
    by_cases hp : hasProducer grid = false
    · simp [hp]
    · have : totalStorageCapacity grid ≤ bits + sumU u := by omega
      simp [hp, this]
  · simp only [h0, if_false]
    by_cases h1 : totalStorageCapacity grid ≤ bits + sumU u
    · simp only [h1, if_true]
      by_cases hp : hasProducer grid = false
      · simp [hp]
      · simp [hp, h1]
    · simp only [h1, if_false]
      by_cases h2 : minesOf grid = []
      · have hp : hasProducer grid = false := (minesAux_nil_iff grid 0).mp h2
        simp [h2, hp]
      · have hp : ¬ hasProducer grid = false := by
          intro hc
          exact h2 ((minesAux_nil_iff grid 0).mpr hc)
        have h3 : ¬ (totalStorageCapacity grid - (bits + sumU u) = 0) := by omega
        have h4 := distribute_changes (minesOf grid)
          (totalStorageCapacity grid - (bits + sumU u)) u h2
          (minesAux_levels grid 0) h3
        rw [if_neg h2, if_neg h3, if_pos h4, if_neg hp]
        exact distribute_minesAux_eq_credit grid 0 _ u

/-! ## Shop allowance (`src/app/game/page.tsx` lines 172-300) -/

/-- Association-list lookup, modelling `record[name]` access. -/
def alookup {α : Type} : List (String × α) → String → Option α
  | [], _ => none
  | (k, v) :: r, n => if k = n then some v else alookup r n

/-- `upgradeCostPerLevel`. -/
def upgradeCostPerLevel : List (String × Nat) :=
  [("bit-storage", 1000), ("bit-mine", 900), ("grid-hall", 2000),
   ("lab", 2000), ("portal", 2000)]

/-- `getPriceForItem` (`cost ?? 0`). -/
def getPriceForItem (item : String) : Nat :=
  (alookup upgradeCostPerLevel item).getD 0

/-- `availableBuildingPerGridHall`: per hub tier, `(name, level, count)`. -/
def availabilityTable : List (List (String × Nat × Nat)) :=
  [ [("bit-storage", 1, 2), ("bit-mine", 1, 2), ("grid-hall", 2, 1)],
    [("bit-storage", 2, 2), ("bit-mine", 3, 3), ("lab", 1, 1),
     ("grid-hall", 3, 1), ("portal", 1, 1)] ]

/-- `highestGridHallLevel`: maximum level over all `grid-hall` cells (0 if none). -/
def highestGridHallLevel : List Nat → Nat
  | [] => 0
  | c :: r =>
    max (if nameOf c = "grid-hall" then levelOfCode c else 0) (highestGridHallLevel r)

/-- `allowedCountsByItem`: the record built from the single availability table
of the highest hub level present (entries with positive count only). -/
def allowedCountsByItem (grid : List Nat) : List (String × Nat) :=
  if highestGridHallLevel grid = 0 then []
  else
    match availabilityTable.get? (highestGridHallLevel grid - 1) with
    | none => []
    | some av => av.filterMap fun e => if 0 < e.2.2 then some (e.1, e.2.2) else none

/-- `remainingPurchasesByItem`: `Math.max(0, allowed - placed)` per allowed
item (`Nat` subtraction renders the `max(0, ·)`). -/
def remainingPurchasesByItem (grid : List Nat) : List (String × Nat) :=
  (allowedCountsByItem grid).filterMap
    fun e => if e.2 = 0 then none else some (e.1, e.2 - placedCount grid e.1)

/-- `remainingPurchasesByItem[item] ?? 0` as read by the drop handler. -/
def shopRemaining (grid : List Nat) (item : String) : Nat :=
  (alookup (remainingPurchasesByItem grid) item).getD 0

/-- Allowance as the spec words it: the allowed count for the name taken from
the single unlock record of the highest hub level present (0 when no hub or no
record). -/
def specAllowedCount (grid : List Nat) (name : String) : Nat :=
  if highestGridHallLevel grid = 0 then 0
  else
    match availabilityTable.get? (highestGridHallLevel grid - 1) with
    | none => 0
    | some av => ((alookup av name).map (fun e => e.2)).getD 0

/-- Spec's `remainingAllowance`: `max(0, allowedCount − placedCount)`. -/
def specRemainingAllowance (grid : List Nat) (name : String) : Nat :=
  specAllowedCount grid name - placedCount grid name

theorem alookup_filtered_none (P : String → Nat) (r : List (String × Nat × Nat))
    (name : String) (h : ∀ e ∈ r, e.1 ≠ name) :
    alookup ((r.filterMap fun e => if 0 < e.2.2 then some (e.1, e.2.2) else none).filterMap
      fun e => if e.2 = 0 then none else some (e.1, e.2 - P e.1)) name = none := by
  induction r with
  | nil => simp [alookup]
  | cons e r ih =>
    obtain ⟨n, lv, c⟩ := e
    have hn : n ≠ name := h (n, lv, c) (List.mem_cons_self _ _)
    have hr : ∀ e ∈ r, e.1 ≠ name := fun e he => h e (List.mem_cons_of_mem _ he)
    by_cases hc : 0 < c
    · by_cases hz : c = 0
      · omega
      · simp only [List.filterMap_cons, hc, if_true, hz, if_false, alookup, hn, ih hr]
    · simp only [List.filterMap_cons, hc, if_false, ih hr]

theorem alookup_remaining (P : String → Nat) (av : List (String × Nat × Nat))
    (hnd : (av.map Prod.fst).Nodup) (name : String) :
    (alookup ((av.filterMap fun e => if 0 < e.2.2 then some (e.1, e.2.2) else none).filterMap
        fun e => if e.2 = 0 then none else some (e.1, e.2 - P e.1)) name).getD 0 =
      ((alookup av name).map (fun e => e.2)).getD 0 - P name := by
  induction av with
  | nil => simp [alookup]
  | cons e r ih =>
    obtain ⟨n, lv, c⟩ := e
    have hnd2 : (r.map Prod.fst).Nodup := (List.nodup_cons.mp hnd).2
    have hnotin : n ∉ r.map Prod.fst := (List.nodup_cons.mp hnd).1
    by_cases hn : n = name
    · subst hn
      by_cases hc : 0 < c
      · have hz : ¬ c = 0 := by omega
        simp only [List.filterMap_cons, hc, if_true, hz, if_false, alookup, if_pos rfl,
          Option.getD_some, Option.map_some]
        simp
      · have hc0 : c = 0 := by omega
        subst hc0
        have hkeys : ∀ e ∈ r, e.1 ≠ n := by
          intro e he hq
          exact hnotin (hq ▸ List.mem_map_of_mem Prod.fst he)
        have hL := alookup_filtered_none P r n hkeys
        simp only [List.filterMap_cons, hc, if_false, hL, Option.getD_none]
        have hR : alookup ((n, lv, 0) :: r) n = some (lv, 0) := by
          simp [alookup]
        rw [hR]
        simp
    · by_cases hc : 0 < c
      · by_cases hz : c = 0
        · omega
        · simp only [List.filterMap_cons, hc, if_true, hz, if_false, alookup, hn, if_false,
            ih hnd2]
      · simp only [List.filterMap_cons, hc, if_false, alookup, hn, if_false, ih hnd2]

/-- C7: the shop's remaining purchase count equals the spec's
`max(0, allowedCount(name, highest hub level) − placedCount(name, grid))`,
with the allowed count drawn from the single highest-tier record. -/
theorem remaining_allowance_highest_tier (grid : List Nat) (item : String) :
    shopRemaining grid item = specRemainingAllowance grid item := by
  unfold shopRemaining specRemainingAllowance specAllowedCount remainingPurchasesByItem
    allowedCountsByItem
  by_cases h0 : highestGridHallLevel grid = 0
  · simp [h0, alookup]
  · simp only [h0, if_false]
    cases hav : availabilityTable.get? (highestGridHallLevel grid - 1) with
    | none => simp [alookup]
    | some av =>
      have hmem : av ∈ availabilityTable := List.get?_mem hav
      have hnd : (av.map Prod.fst).Nodup := by
        simp only [availabilityTable, List.mem_cons, List.mem_singleton,
          List.not_mem_nil, or_false] at hmem
        rcases hmem with h | h <;> subst h <;> decide
      exact alookup_remaining (fun nm => placedCount grid nm) av hnd item

/-! ## Drop handlers (`onDrop`, `src/app/game/page.tsx` lines 587-634) -/

/-- The shop branch of `onDrop`: place a newly bought level-1 building. -/
def onDropShop (grid : List Nat) (i : Nat) (item : String) (bits : Nat) (u : UncMap) :
    List Nat × Nat × UncMap :=
  if ¬ nameOf (grid.getD i 0) = "" then (grid, bits, u)
  else if shopRemaining grid item = 0 then (grid, bits, u)
  else if bits < getPriceForItem item then (grid, bits, u)
  else if cellCodeOf item 1 ≤ 0 then (grid, bits, u)
  else
    (grid.set i (cellCodeOf item 1).toNat, bits - getPriceForItem item,
      if item = "bit-mine" then setU u i 0 else u)

/-- The grid-move branch of `onDrop`: relocate a building, carrying a mine's
uncollected entry along. -/
def onDropMove (grid : List Nat) (fromIdx i : Nat) (u : UncMap) : List Nat × UncMap :=
  if ¬ nameOf (grid.getD i 0) = "" then (grid, u)
  else if fromIdx = i then (grid, u)
  else
    ((grid.set i (grid.getD fromIdx 0)).set fromIdx 0,
      if nameOf (grid.getD fromIdx 0) = "bit-mine" then
        eraseU (setU u i (getU u fromIdx)) fromIdx
      else u)

/-- C8: a placement request whose target is occupied, whose item has no
remaining allowance, or whose price exceeds the pool is refused with grid,
pool and yield map unchanged. -/
theorem place_refusal_leaves_state_unchanged (grid : List Nat) (i : Nat) (item : String)
    (bits : Nat) (u : UncMap)
    (h : ¬ nameOf (grid.getD i 0) = "" ∨ shopRemaining grid item = 0 ∨
      bits < getPriceForItem item) :
    onDropShop grid i item bits u = (grid, bits, u) := by
  simp only [onDropShop]
  split_ifs with h1 h2 h3 h4 h5 <;> try rfl
  all_goals rcases h with h | h | h
  all_goals first
    | exact absurd h1 h
    | exact absurd h h2
    | exact absurd h h3

/-- Witness for C8: dropping a storage on the occupied hall cell of `[1]` is
refused and changes nothing. -/
theorem place_refusal_witness :
    (¬ nameOf (([1] : List Nat).getD 0 0) = "" ∨ shopRemaining [1] "bit-storage" = 0 ∨
      (5000 : Nat) < getPriceForItem "bit-storage") ∧
      onDropShop [1] 0 "bit-storage" 5000 [] = ([1], 5000, []) :=
  ⟨Or.inl (by decide),
    place_refusal_leaves_state_unchanged [1] 0 "bit-storage" 5000 [] (Or.inl (by decide))⟩

/-- C10: a successful move of a bit-mine from `fromIdx` to the empty cell `i`
removes the yield entry at `fromIdx`, creates/overwrites the entry at `i` with
the value previously at `fromIdx` (0 when absent), and leaves all other
entries unchanged. -/
theorem move_mine_relocates_uncollected (grid : List Nat) (fromIdx i : Nat) (u : UncMap)
    (hEmpty : nameOf (grid.getD i 0) = "") (hNe : fromIdx ≠ i)
    (hMine : nameOf (grid.getD fromIdx 0) = "bit-mine") :
    getEntry (onDropMove grid fromIdx i u).2 fromIdx = none ∧
      getEntry (onDropMove grid fromIdx i u).2 i = some ((getEntry u fromIdx).getD 0) ∧
      ∀ j, j ≠ fromIdx → j ≠ i → getEntry (onDropMove grid fromIdx i u).2 j = getEntry u j := by
  have hcond : ¬ ¬ nameOf (grid.getD i 0) = "" := not_not.mpr hEmpty
  unfold onDropMove
  rw [if_neg hcond, if_neg hNe]
  dsimp only
  rw [if_pos hMine]
  refine ⟨getEntry_eraseU_self _ fromIdx, ?_, ?_⟩
  · rw [getEntry_eraseU_ne _ _ _ (Ne.symm hNe), getEntry_setU_self]
    rfl
  · intro j hj1 hj2
    rw [getEntry_eraseU_ne _ _ _ hj1, getEntry_setU_ne _ _ _ _ hj2]

/-- Witness for C10: move the mine of `[3, 0]` from cell 0 to cell 1 carrying
its 7 uncollected bits. -/
theorem move_mine_relocates_witness :
    nameOf (([3, 0] : List Nat).getD 1 0) = "" ∧
      getEntry (onDropMove [3, 0] 0 1 [(0, 7)]).2 0 = none ∧
      getEntry (onDropMove [3, 0] 0 1 [(0, 7)]).2 1 = some ((getEntry [(0, 7)] 0).getD 0) ∧
      (∀ j, j ≠ 0 → j ≠ 1 →
        getEntry (onDropMove [3, 0] 0 1 [(0, 7)]).2 j = getEntry [(0, 7)] j) := by
  have h := move_mine_relocates_uncollected [3, 0] 0 1 [(0, 7)]
    (by decide) (by decide) (by decide)
  exact ⟨by decide, h.1, h.2.1, h.2.2⟩

/-! ## Sector generator (`src/app/game/sector/[id]/page.tsx` lines 29-131)

The RNG state is the accumulator `a` of `mulberry32`; JS stores it as a float
but the bitwise operations coerce it through `ToUint32`, so only `a mod 2^32`
matters and the additions stay exact (below `2^53`).  We track the exact `Nat`
accumulator and reduce modulo `2^32` where JS coerces.  `rng()` returns
`k / 2^32` for a 32-bit `k`; every use in the generator multiplies by a
constant `≤ 2000` and floors — exact in float64 — or compares against a
float literal, rendered by the exact integer threshold of the nearest double
(`0.25 ↦ 1073741824`, `0.15 ↦ 644245095`, `0.1 ↦ 429496730`). -/

/-- `stringToSeed`: FNV-style fold over the UTF-16 char codes. -/
def stringToSeed (s : List Nat) : Nat :=
  s.foldl (fun h c => ((h ^^^ c) * 16777619) % 4294967296) 2166136261

/-- One step of `mulberry32`: returns the 32-bit numerator of the output
together with the advanced accumulator. -/
def mulberryNext (a : Nat) : Nat × Nat :=
  let a2 := a + 1831565813
  let u := a2 % 4294967296
  let t1 := ((u ^^^ (u >>> 15)) * (u ||| 1)) % 4294967296
  let m := ((t1 ^^^ (t1 >>> 7)) * (t1 ||| 61)) % 4294967296
  let t2 := t1 ^^^ ((t1 + m) % 4294967296)
  (t2 ^^^ (t2 >>> 14), a2)

/-- `Math.floor(rng() * c)` for the 32-bit numerator `k` (exact in float64 for
the multipliers used here). -/
def floorMul (k c : Nat) : Nat :=
  k * c / 4294967296

/-- The `while` loop of `pickRandomIndices`, generic in the random stream
(`rngStep` over a state type `σ`, as the source is generic in its `rng`
argument) and bounded by `fuel` since the rejection sampling has no intrinsic
bound; `none` means the loop was still running when the fuel ran out.
`taken.length` is the JS `Set.size` (callers start from a deduplicated list
and insertion is guarded by membership). -/
def pickLoopG {σ : Type} (rngStep : σ → Nat × σ) (count maxExclusive : Nat) :
    Nat → σ → List Nat → List Nat → Option (List Nat × σ)
  | 0, _, _, _ => none
  | fuel + 1, s, result, taken =>
    if result.length < count ∧ taken.length < maxExclusive then
      let k := (rngStep s).1
      let s2 := (rngStep s).2
      let idx := floorMul k maxExclusive
      if idx ∈ taken then pickLoopG rngStep count maxExclusive fuel s2 result taken
      else pickLoopG rngStep count maxExclusive fuel s2 (result ++ [idx]) (idx :: taken)
    else some (result, s)

/-- `pickRandomIndices(rng, count, maxExclusive, exclude)` with the mulberry32
stream; `new Set(exclude)` deduplicates the exclusion list. -/
def pickRandomIndices (a count maxExclusive : Nat) (exclude : List Nat) (fuel : Nat) :
    Option (List Nat × Nat) :=
  pickLoopG mulberryNext count maxExclusive fuel a [] exclude.dedup

/-- The `indices.forEach` body shared by the storage and mine phases: add the
index to `exclude`, draw a level (`2` below the threshold, else `1`) and write
the building's cell code. -/
def placePhase (name : String) (thr : Nat) :
    List Nat → List Nat → List Nat → Nat → List Nat × List Nat × Nat
  | [], g, ex, a => (g, ex, a)
  | i :: rest, g, ex, a =>
    let k := (mulberryNext a).1
    let level := if k < thr then 2 else 1
    placePhase name thr rest (g.set i (cellCodeOf name level).toNat) (i :: ex) (mulberryNext a).2

/-- The `if (rng() < 0.1) { ... }` lab/portal placement: the coin `k` was
already drawn; on success draw one fresh index (if any) and place a level-1
building there. -/
def maybePlaceOne (name : String) (k : Nat) (g ex : List Nat) (a fuel : Nat) :
    Option (List Nat × List Nat × Nat) :=
  if k < 429496730 then
    match pickRandomIndices a 1 64 ex fuel with
    | none => none
    | some (res, a2) =>
      match res.head? with
      | none => some (g, ex, a2)
      | some i => some (g.set i (cellCodeOf name 1).toNat, i :: ex, a2)
  else some (g, ex, a)

/-- Tail of `generateRandomBase` (lines 120-130 of the sector page): the
initial bit fill, `floor(rng() * min(totalCapacity, 2000))` when some storage
capacity exists, else 0. -/
def genFinish (q : List Nat × List Nat × Nat) : Option (List Nat × Nat) :=
  let cap := totalStorageCapacity q.1
  if 0 < cap then some (q.1, floorMul (mulberryNext q.2.2).1 (min cap 2000))
  else some (q.1, 0)

/-- Tail of `generateRandomBase` after the mines are placed (lines 104-130):
the two 10%-probability lab/portal placements, then the bit fill.  The
fallible steps are chained with `Option.bind` (fuel exhaustion propagates). -/
def genAfterMines (p2 : List Nat × List Nat × Nat) (fuel : Nat) : Option (List Nat × Nat) :=
  (maybePlaceOne "lab" (mulberryNext p2.2.2).1 p2.1 p2.2.1
      (mulberryNext p2.2.2).2 fuel).bind
    fun q1 =>
      (maybePlaceOne "portal" (mulberryNext q1.2.2).1 q1.1 q1.2.1
          (mulberryNext q1.2.2).2 fuel).bind genFinish

/-- Tail of `generateRandomBase` after the storages are placed (lines 96-130):
draw and place the mines, then continue. -/
def genAfterStorages (p1 : List Nat × List Nat × Nat) (minesN fuel : Nat) :
    Option (List Nat × Nat) :=
  (pickRandomIndices p1.2.2 minesN 64 p1.2.1 fuel).bind
    fun pr2 =>
      genAfterMines (placePhase "bit-mine" 644245095 pr2.1 p1.1 p1.2.1 pr2.2) fuel

/-- `generateRandomBase(sectorId)` (lines 73-131 of the sector page, split
into the stage functions above in source order): deterministic base layout and
initial bit fill from the string seed.  Every unbounded rejection-sampling
loop receives `fuel`; `none` reports fuel exhaustion (the JS loop simply keeps
drawing). -/
def generateRandomBase (sectorId : List Nat) (fuel : Nat) : Option (List Nat × Nat) :=
  let a0 := stringToSeed sectorId
  let r1 := mulberryNext a0
  let hallIndex := floorMul r1.1 64
  let grid1 := (List.replicate 64 0).set hallIndex (cellCodeOf "grid-hall" 1).toNat
  let r2 := mulberryNext r1.2
  let storages := 1 + floorMul r2.1 2
  let r3 := mulberryNext r2.2
  let minesN := 1 + floorMul r3.1 2
  (pickRandomIndices r3.2 storages 64 [hallIndex] fuel).bind
    fun pr1 =>
      genAfterStorages (placePhase "bit-storage" 1073741824 pr1.1 grid1 [hallIndex] pr1.2)
        minesN fuel

/-! ## C5: determinism of the generator -/

/-- C5: sector generation is a pure function of the seed string — two calls
with the same seed (and fuel bound) return identical grids and identical
initial fills. -/
theorem generate_deterministic (s1 s2 : List Nat) (fuel : Nat) (h : s1 = s2) :
    generateRandomBase s1 fuel = generateRandomBase s2 fuel := by
  rw [h]

/-- Witness for C5 at the seed `"1"` (char code 49). -/
theorem generate_deterministic_witness :
    ([49] : List Nat) = [49] ∧
      generateRandomBase [49] 500 = generateRandomBase [49] 500 :=
  ⟨rfl, generate_deterministic [49] [49] 500 rfl⟩

/-! ## C9: properties of the rejection-sampling index drawing -/

theorem floorMul_lt (k mx : Nat) (hk : k < 4294967296) (hmx : 0 < mx) :
    floorMul k mx < mx := by
  unfold floorMul
  rw [Nat.div_lt_iff_lt_mul (by norm_num : (0 : Nat) < 4294967296)]
  calc k * mx < 4294967296 * mx := (Nat.mul_lt_mul_right hmx).mpr hk
    _ = mx * 4294967296 := Nat.mul_comm _ _

theorem pickLoopG_sound {σ : Type} (rngStep : σ → Nat × σ) (count mx : Nat)
    (A : List Nat) :
    ∀ (fuel : Nat) (s : σ) (result taken res : List Nat) (s2 : σ),
      pickLoopG rngStep count mx fuel s result taken = some (res, s2) →
      result.Nodup → (∀ i ∈ result, i ∈ taken) → (∀ i ∈ result, i ∉ A) →
      (∀ i ∈ A, i ∈ taken) → result.length ≤ count →
      res.Nodup ∧ (∀ i ∈ res, i ∉ A) ∧ res.length ≤ count := by
  intro fuel
  induction fuel with
  | zero =>
    intro s result taken res s2 h
    simp [pickLoopG] at h
  | succ n ih =>
    intro s result taken res s2 h hnd hsub hA hAt hlen
    simp only [pickLoopG] at h
    by_cases hcond : result.length < count ∧ taken.length < mx
    · rw [if_pos hcond] at h
      by_cases hmem : floorMul (rngStep s).1 mx ∈ taken
      · rw [if_pos hmem] at h
        exact ih _ _ _ _ _ h hnd hsub hA hAt hlen
      · rw [if_neg hmem] at h
        have hfresh : floorMul (rngStep s).1 mx ∉ result := fun hc => hmem (hsub _ hc)
        have hfreshA : floorMul (rngStep s).1 mx ∉ A := fun hc => hmem (hAt _ hc)
        apply ih _ _ _ _ _ h
        · simpa [List.nodup_append] using ⟨hnd, fun hc => hfresh hc⟩
        · intro i hi
          rcases List.mem_append.mp hi with hi | hi
          · exact List.mem_cons_of_mem _ (hsub i hi)
          · simp only [List.mem_singleton] at hi
            subst hi
            exact List.mem_cons_self _ _
        · intro i hi
          rcases List.mem_append.mp hi with hi | hi
          · exact hA i hi
          · simp only [List.mem_singleton] at hi
            subst hi
            exact hfreshA
        · intro i hi
          exact List.mem_cons_of_mem _ (hAt i hi)
        · simpa using hcond.1
    · rw [if_neg hcond] at h
      obtain ⟨h1, h2⟩ := Prod.mk.injEq .. ▸ Option.some.inj h
      subst h1
      exact ⟨hnd, hA, hlen⟩

theorem pickLoopG_lt {σ : Type} (rngStep : σ → Nat × σ) (count mx : Nat)
    (hk : ∀ s : σ, (rngStep s).1 < 4294967296) (hmx : 0 < mx) :
    ∀ (fuel : Nat) (s : σ) (result taken res : List Nat) (s2 : σ),
      pickLoopG rngStep count mx fuel s result taken = some (res, s2) →
      (∀ i ∈ result, i < mx) → (∀ i ∈ res, i < mx) := by
  intro fuel
  induction fuel with
  | zero =>
    intro s result taken res s2 h
    simp [pickLoopG] at h
  | succ n ih =>
    intro s result taken res s2 h hres
    simp only [pickLoopG] at h
    by_cases hcond : result.length < count ∧ taken.length < mx
    · rw [if_pos hcond] at h
      by_cases hmem : floorMul (rngStep s).1 mx ∈ taken
      · rw [if_pos hmem] at h
        exact ih _ _ _ _ _ h hres
      · rw [if_neg hmem] at h
        apply ih _ _ _ _ _ h
        intro i hi
        rcases List.mem_append.mp hi with hi | hi
        · exact hres i hi
        · simp only [List.mem_singleton] at hi
          subst hi
          exact floorMul_lt _ _ (hk s) hmx
    · rw [if_neg hcond] at h
      obtain ⟨h1, h2⟩ := Prod.mk.injEq .. ▸ Option.some.inj h
      subst h1
      exact hres

/-- Wrapper for the abstract-stream form of `pickRandomIndices`. -/
def pickRandomIndicesG {σ : Type} (rngStep : σ → Nat × σ)
    (count maxExclusive : Nat) (exclude : List Nat) (fuel : Nat) (s : σ) :
    Option (List Nat × σ) :=
  pickLoopG rngStep count maxExclusive fuel s [] exclude.dedup

/-- C9 (amended): for every random stream, whenever the rejection-sampling
loop completes it returns pairwise-distinct indices none of which lies in the
exclusion set (termination itself is not guaranteed for every stream, see the
counterexample). -/
theorem pick_indices_distinct_and_fresh {σ : Type} (rngStep : σ → Nat × σ)
    (count maxExclusive fuel : Nat) (exclude : List Nat) (s : σ)
    (res : List Nat) (s2 : σ)
    (h : pickRandomIndicesG rngStep count maxExclusive exclude fuel s = some (res, s2)) :
    res.Nodup ∧ ∀ i ∈ res, i ∉ exclude := by
  have hs := pickLoopG_sound rngStep count maxExclusive exclude fuel s [] exclude.dedup
    res s2 h List.nodup_nil (by simp) (by simp)
    (fun i hi => List.mem_dedup.mpr hi) (by simp)
  exact ⟨hs.1, hs.2.1⟩

/-- A degenerate stream that always produces the 32-bit numerator 0. -/
def constZeroStep : Unit → Nat × Unit := fun _ => (0, ())

theorem pickLoop_const_stuck (fuel : Nat) :
    pickLoopG constZeroStep 1 64 fuel () [] [0] = none := by
  induction fuel with
  | zero => rfl
  | succ n ih =>
    simp only [pickLoopG, constZeroStep, floorMul]
    simpa using ih

/-- C9 counterexample: with the stream that constantly yields 0 and the
exclusion set `{0}`, the drawing never terminates (no fuel bound suffices), so
"terminates for every pseudo-random stream" is false. -/
theorem pick_indices_nontermination :
    ¬ ∃ (fuel : Nat) (r : List Nat × Unit),
        pickRandomIndicesG constZeroStep 1 64 [0] fuel () = some r := by
  rintro ⟨fuel, r, h⟩
  have hd : ([0] : List Nat).dedup = [0] := by decide
  unfold pickRandomIndicesG at h
  rw [hd, pickLoop_const_stuck] at h
  exact Option.noConfusion h

/-! ## C6: structural bounds of every generated grid -/

theorem mulberryNext_fst_lt (a : Nat) : (mulberryNext a).1 < 4294967296 := by
  have h32 : (4294967296 : Nat) = 2 ^ 32 := by norm_num
  unfold mulberryNext
  dsimp only
  rw [h32]
  apply Nat.xor_lt_two_pow
  · apply Nat.xor_lt_two_pow
    · rw [← h32]
      exact Nat.mod_lt _ (by norm_num)
    · rw [← h32]
      exact Nat.mod_lt _ (by norm_num)
  · have hsh : ∀ x n : Nat, x >>> n ≤ x := by
      intro x n
      rw [Nat.shiftRight_eq_div_pow]
      exact Nat.div_le_self _ _
    apply Nat.lt_of_le_of_lt (hsh _ 14)
    apply Nat.xor_lt_two_pow
    · rw [← h32]
      exact Nat.mod_lt _ (by norm_num)
    · rw [← h32]
      exact Nat.mod_lt _ (by norm_num)

theorem getD_set_eq_if (g : List Nat) (i c j : Nat) (hi : i < g.length) :
    (g.set i c).getD j 0 = if j = i then c else g.getD j 0 := by
  induction g generalizing i j with
  | nil => simp at hi
  | cons x r ih =>
    cases i with
    | zero =>
      cases j with
      | zero => simp
      | succ j => simp
    | succ i =>
      cases j with
      | zero => simp
      | succ j =>
        have hi2 : i < r.length := by simpa using hi
        simp only [List.set, List.getD_cons_succ]
        rw [ih i j hi2]
        by_cases hji : j = i
        · simp [hji]
        · simp [hji, fun hc => hji (Nat.succ_injective hc)]

theorem getD_replicate_zero (m j : Nat) : (List.replicate m (0 : Nat)).getD j 0 = 0 := by
  induction m generalizing j with
  | zero => simp
  | succ m ih =>
    cases j with
    | zero => simp [List.replicate]
    | succ j => simp [List.replicate, ih j]

theorem placedCount_set (g : List Nat) (i c : Nat) (n : String) (hi : i < g.length)
    (hempty : nameOf (g.getD i 0) = "") (hn : ¬ n = "") :
    placedCount (g.set i c) n = placedCount g n + (if nameOf c = n then 1 else 0) := by
  induction g generalizing i with
  | nil => simp at hi
  | cons x r ih =>
    cases i with
    | zero =>
      have hx : ¬ nameOf x = n := by
        intro hc
        rw [List.getD_cons_zero] at hempty
        exact hn (hc ▸ hempty)
      simp only [List.set, placedCount, hx, if_false]
      omega
    | succ i =>
      have hi2 : i < r.length := by simpa using hi
      have h2 : nameOf (r.getD i 0) = "" := by
        simpa [List.getD_cons_succ] using hempty
      simp only [List.set, placedCount]
      rw [ih i hi2 h2]
      omega

theorem placedCount_replicate (m : Nat) (n : String) (hn : ¬ n = "") :
    placedCount (List.replicate m 0) n = 0 := by
  induction m with
  | zero => simp [List.replicate, placedCount]
  | succ m ih =>
    have hz : ¬ nameOf 0 = n := by
      intro hc
      apply hn
      rw [← hc]
      rfl
    simp [List.replicate, placedCount, hz, ih]

theorem placePhase_spec (name : String) (thr : Nat)
    (hc1 : nameOf (cellCodeOf name 1).toNat = name)
    (hc2 : nameOf (cellCodeOf name 2).toNat = name) :
    ∀ (l g ex : List Nat) (a : Nat),
      l.Nodup → (∀ i ∈ l, i < g.length) → (∀ i ∈ l, nameOf (g.getD i 0) = "") →
      (∀ n, ¬ n = "" →
        placedCount (placePhase name thr l g ex a).1 n =
          placedCount g n + (if n = name then l.length else 0)) ∧
      ((∀ j, j ∉ ex → nameOf (g.getD j 0) = "") →
        ∀ j, j ∉ (placePhase name thr l g ex a).2.1 →
          nameOf ((placePhase name thr l g ex a).1.getD j 0) = "") ∧
      (∀ j, j ∈ (placePhase name thr l g ex a).2.1 ↔ j ∈ l ∨ j ∈ ex) ∧
      (placePhase name thr l g ex a).1.length = g.length := by
  intro l
  induction l with
  | nil =>
    intro g ex a _ _ _
    refine ⟨fun n hn => by simp [placePhase], fun hE => by simpa [placePhase] using hE,
      fun j => by simp [placePhase], by simp [placePhase]⟩
  | cons i rest ih =>
    intro g ex a hnd hlt hempty
    have hndr : rest.Nodup := (List.nodup_cons.mp hnd).2
    have hbin : i ∉ rest := (List.nodup_cons.mp hnd).1
    have hi : i < g.length := hlt i (List.mem_cons_self _ _)
    have hie : nameOf (g.getD i 0) = "" := hempty i (List.mem_cons_self _ _)
    set code := (cellCodeOf name (if (mulberryNext a).1 < thr then 2 else 1)).toNat with hcode
    have hcn : nameOf code = name := by
      by_cases hk : (mulberryNext a).1 < thr
      · simp [hcode, hk, hc2]
      · simp [hcode, hk, hc1]
    have hstep : placePhase name thr (i :: rest) g ex a =
        placePhase name thr rest (g.set i code) (i :: ex) (mulberryNext a).2 := by
      simp only [placePhase, hcode]
    have hlen2 : ∀ j ∈ rest, j < (g.set i code).length := by
      intro j hj
      rw [List.length_set]
      exact hlt j (List.mem_cons_of_mem _ hj)
    have hempty2 : ∀ j ∈ rest, nameOf ((g.set i code).getD j 0) = "" := by
      intro j hj
      have hji : ¬ j = i := fun hc => hbin (hc ▸ hj)
      rw [getD_set_eq_if g i code j hi, if_neg hji]
      exact hempty j (List.mem_cons_of_mem _ hj)
    obtain ⟨ihc, ihE, ihex, ihlen⟩ :=
      ih (g.set i code) (i :: ex) (mulberryNext a).2 hndr hlen2 hempty2
    rw [hstep]
    refine ⟨?_, ?_, ?_, ?_⟩
    · intro n hn
      rw [ihc n hn, placedCount_set g i code n hi hie hn]
      by_cases hnn : n = name
      · subst hnn
        rw [hcn]
        simp only [eq_self_iff_true, if_true, List.length_cons]
        omega
      · have hcn2 : ¬ nameOf code = n := by
          rw [hcn]
          exact fun hc => hnn hc.symm
        simp only [hcn2, if_false, hnn]
    · intro hE j hj
      apply ihE ?_ j hj
      intro j2 hj2
      have hj2i : ¬ j2 = i := fun hc => hj2 (hc ▸ List.mem_cons_self _ _)
      have hj2ex : j2 ∉ ex := fun hc => hj2 (List.mem_cons_of_mem _ hc)
      rw [getD_set_eq_if g i code j2 hi, if_neg hj2i]
      exact hE j2 hj2ex
    · intro j
      rw [ihex j]
      simp only [List.mem_cons]
      tauto
    · rw [ihlen, List.length_set]

theorem maybePlaceOne_spec (name : String) (hname : ¬ name = "")
    (hc1 : nameOf (cellCodeOf name 1).toNat = name)
    (k : Nat) (g ex : List Nat) (a fuel : Nat) (hglen : g.length = 64)
    (hE : ∀ j, j ∉ ex → nameOf (g.getD j 0) = "")
    (q : List Nat × List Nat × Nat)
    (h : maybePlaceOne name k g ex a fuel = some q) :
    (∀ n, ¬ n = "" → ¬ n = name → placedCount q.1 n = placedCount g n) ∧
      placedCount q.1 name ≤ placedCount g name + 1 ∧
      (∀ j, j ∉ q.2.1 → nameOf (q.1.getD j 0) = "") ∧
      q.1.length = 64 := by
  unfold maybePlaceOne at h
  by_cases hcoin : k < 429496730
  · rw [if_pos hcoin] at h
    cases hp : pickRandomIndices a 1 64 ex fuel with
    | none =>
      rw [hp] at h
      exact Option.noConfusion h
    | some pr =>
      obtain ⟨res, a2⟩ := pr
      rw [hp] at h
      dsimp only at h
      have hp2 : pickLoopG mulberryNext 1 64 fuel a [] ex.dedup = some (res, a2) := by
        simpa [pickRandomIndices] using hp
      have hsound := pickLoopG_sound mulberryNext 1 64 ex fuel a [] ex.dedup res a2 hp2
        List.nodup_nil (by simp) (by simp) (fun i hi => List.mem_dedup.mpr hi) (by simp)
      have hlt := pickLoopG_lt mulberryNext 1 64 (fun s => mulberryNext_fst_lt s)
        (by norm_num) fuel a [] ex.dedup res a2 hp2 (by simp)
      cases hh : res.head? with
      | none =>
        rw [hh] at h
        have hq : q = (g, ex, a2) := (Option.some.inj h).symm
        subst hq
        exact ⟨fun n _ _ => rfl, Nat.le_add_right _ 1, hE, hglen⟩
      | some i =>
        rw [hh] at h
        have hq : q = (g.set i (cellCodeOf name 1).toNat, i :: ex, a2) :=
          (Option.some.inj h).symm
        subst hq
        have hires : i ∈ res := by
          cases res with
          | nil => simp at hh
          | cons x t =>
            simp only [List.head?] at hh
            rw [Option.some.inj hh]
            exact List.mem_cons_self _ _
        have hiex : i ∉ ex := hsound.2.1 i hires
        have hi64 : i < 64 := hlt i hires
        have hig : i < g.length := by omega
        have hie : nameOf (g.getD i 0) = "" := hE i hiex
        refine ⟨?_, ?_, ?_, ?_⟩
        · intro n hn hnn
          show placedCount (g.set i (cellCodeOf name 1).toNat) n = placedCount g n
          rw [placedCount_set g i _ n hig hie hn]
          have hne : ¬ nameOf (cellCodeOf name 1).toNat = n := by
            rw [hc1]
            exact fun hc => hnn hc.symm
          simp [hne]
        · show placedCount (g.set i (cellCodeOf name 1).toNat) name ≤
            placedCount g name + 1
          rw [placedCount_set g i _ name hig hie hname]
          simp [hc1]
        · intro j hj
          have hji : ¬ j = i := fun hc => hj (hc ▸ List.mem_cons_self _ _)
          have hjex : j ∉ ex := fun hc => hj (List.mem_cons_of_mem _ hc)
          show nameOf ((g.set i (cellCodeOf name 1).toNat).getD j 0) = ""
          rw [getD_set_eq_if g i _ j hig, if_neg hji]
          exact hE j hjex
        · show (g.set i (cellCodeOf name 1).toNat).length = 64
          rw [List.length_set, hglen]
  · rw [if_neg hcoin] at h
    have hq : q = (g, ex, a) := (Option.some.inj h).symm
    subst hq
    exact ⟨fun n _ _ => rfl, Nat.le_add_right _ 1, hE, hglen⟩


theorem genFinish_fst (q : List Nat × List Nat × Nat) (g : List Nat) (b : Nat)
    (h : genFinish q = some (g, b)) : g = q.1 := by
  simp only [genFinish] at h
  by_cases hcap : 0 < totalStorageCapacity q.1
  · rw [if_pos hcap] at h
    exact (congrArg Prod.fst (Option.some.inj h)).symm
  · rw [if_neg hcap] at h
    exact (congrArg Prod.fst (Option.some.inj h)).symm

theorem genAfterMines_spec (p2 : List Nat × List Nat × Nat) (fuel : Nat)
    (g : List Nat) (b : Nat) (h : genAfterMines p2 fuel = some (g, b))
    (hlen : p2.1.length = 64)
    (hE : ∀ j, j ∉ p2.2.1 → nameOf (p2.1.getD j 0) = "") :
    (∀ n, ¬ n = "" → ¬ n = "lab" → ¬ n = "portal" →
      placedCount g n = placedCount p2.1 n) ∧
      placedCount g "lab" ≤ placedCount p2.1 "lab" + 1 ∧
      placedCount g "portal" ≤ placedCount p2.1 "portal" + 1 := by
  simp only [genAfterMines] at h
  rw [Option.bind_eq_some] at h
  obtain ⟨q1, hq1m, h⟩ := h
  obtain ⟨h1other, h1lab, h1E, h1len⟩ :=
    maybePlaceOne_spec "lab" (by decide) (by decide) _ p2.1 p2.2.1 _ fuel hlen hE q1 hq1m
  rw [Option.bind_eq_some] at h
  obtain ⟨q2, hq2m, h⟩ := h
  obtain ⟨h2other, h2portal, h2E, h2len⟩ :=
    maybePlaceOne_spec "portal" (by decide) (by decide) _ q1.1 q1.2.1 _ fuel
      h1len h1E q2 hq2m
  have hgq : g = q2.1 := genFinish_fst q2 g b h
  subst hgq
  refine ⟨?_, ?_, ?_⟩
  · intro n hn hnl hnp
    rw [h2other n hn hnp, h1other n hn hnl]
  · rw [h2other "lab" (by decide) (by decide)]
    exact h1lab
  · have h3 := h2portal
    rw [h1other "portal" (by decide) (by decide)] at h3
    exact h3

theorem genAfterStorages_spec (p1 : List Nat × List Nat × Nat) (minesN fuel : Nat)
    (g : List Nat) (b : Nat) (h : genAfterStorages p1 minesN fuel = some (g, b))
    (hlen : p1.1.length = 64)
    (hE : ∀ j, j ∉ p1.2.1 → nameOf (p1.1.getD j 0) = "") :
    (∀ n, ¬ n = "" → ¬ n = "bit-mine" → ¬ n = "lab" → ¬ n = "portal" →
      placedCount g n = placedCount p1.1 n) ∧
      placedCount g "bit-mine" ≤ placedCount p1.1 "bit-mine" + minesN ∧
      placedCount g "lab" ≤ placedCount p1.1 "lab" + 1 ∧
      placedCount g "portal" ≤ placedCount p1.1 "portal" + 1 := by
  simp only [genAfterStorages] at h
  rw [Option.bind_eq_some] at h
  obtain ⟨pr2, hpick, h⟩ := h
  obtain ⟨mineIdx, a6⟩ := pr2
  have hpickg : pickLoopG mulberryNext minesN 64 fuel p1.2.2 [] (p1.2.1.dedup) =
      some (mineIdx, a6) := by
    simpa [pickRandomIndices] using hpick
  have hs := pickLoopG_sound mulberryNext minesN 64 p1.2.1 fuel p1.2.2 []
    (p1.2.1.dedup) mineIdx a6 hpickg List.nodup_nil (by simp) (by simp)
    (fun i hi => List.mem_dedup.mpr hi) (by simp)
  have hlt := pickLoopG_lt mulberryNext minesN 64 (fun s2 => mulberryNext_fst_lt s2)
    (by norm_num) fuel p1.2.2 [] (p1.2.1.dedup) mineIdx a6 hpickg (by simp)
  obtain ⟨hcps, hEs, hexs, hlens⟩ :=
    placePhase_spec "bit-mine" 644245095 (by decide) (by decide) mineIdx p1.1 p1.2.1 a6
      hs.1 (fun i hi => by rw [hlen]; exact hlt i hi) (fun i hi => hE i (hs.2.1 i hi))
  have hE2 := hEs hE
  have hlen2 : (placePhase "bit-mine" 644245095 mineIdx p1.1 p1.2.1 a6).1.length = 64 := by
    rw [hlens, hlen]
  obtain ⟨hother, hlab, hportal⟩ := genAfterMines_spec _ fuel g b h hlen2 hE2
  refine ⟨?_, ?_, ?_, ?_⟩
  · intro n hn hnm hnl hnp
    rw [hother n hn hnl hnp, hcps n hn]
    simp [hnm]
  · rw [hother "bit-mine" (by decide) (by decide) (by decide),
      hcps "bit-mine" (by decide)]
    have h2 := hs.2.2
    simp only [eq_self_iff_true, if_true]
    omega
  · have h2 := hlab
    rw [hcps "lab" (by decide)] at h2
    simpa using h2
  · have h2 := hportal
    rw [hcps "portal" (by decide)] at h2
    simpa using h2

/-- Apply a list of `(index, cell code)` writes in order (`grid.set`). -/
def setMany (g : List Nat) (ps : List (Nat × Nat)) : List Nat :=
  ps.foldl (fun gr p => gr.set p.1 p.2) g

theorem setMany_append (g : List Nat) (ps1 ps2 : List (Nat × Nat)) :
    setMany g (ps1 ++ ps2) = setMany (setMany g ps1) ps2 := by
  simp [setMany, List.foldl_append]

theorem setMany_cons (g : List Nat) (i c : Nat) (ps : List (Nat × Nat)) :
    setMany g ((i, c) :: ps) = setMany (g.set i c) ps := rfl

/-- The `(index, cell code)` pairs the storage/mine phase writes, in source
order: the same level draw as `placePhase`, recorded instead of applied. -/
def placePhaseP (name : String) (thr : Nat) : List Nat → Nat → List (Nat × Nat)
  | [], _ => []
  | i :: rest, a =>
    (i, (cellCodeOf name (if (mulberryNext a).1 < thr then 2 else 1)).toNat) ::
      placePhaseP name thr rest (mulberryNext a).2

theorem placePhaseP_fst (name : String) (thr : Nat) :
    ∀ (l : List Nat) (a : Nat), (placePhaseP name thr l a).map Prod.fst = l := by
  intro l
  induction l with
  | nil => intro a; rfl
  | cons i rest ih =>
    intro a
    simp [placePhaseP, ih]

theorem placePhaseP_codes (name : String) (thr : Nat) :
    ∀ (l : List Nat) (a : Nat) (p : Nat × Nat), p ∈ placePhaseP name thr l a →
      p.2 = (cellCodeOf name 1).toNat ∨ p.2 = (cellCodeOf name 2).toNat := by
  intro l
  induction l with
  | nil =>
    intro a p hp
    simp [placePhaseP] at hp
  | cons i rest ih =>
    intro a p hp
    simp only [placePhaseP, List.mem_cons] at hp
    rcases hp with hp | hp
    · subst hp
      by_cases hk : (mulberryNext a).1 < thr
      · simp [hk]
      · simp [hk]
    · exact ih _ p hp

theorem placePhase_fst_setMany (name : String) (thr : Nat) :
    ∀ (l g ex : List Nat) (a : Nat),
      (placePhase name thr l g ex a).1 = setMany g (placePhaseP name thr l a) := by
  intro l
  induction l with
  | nil =>
    intro g ex a
    rfl
  | cons i rest ih =>
    intro g ex a
    simp only [placePhase, placePhaseP]
    exact ih _ _ _

theorem placePhase_ex_mem (name : String) (thr : Nat) :
    ∀ (l g ex : List Nat) (a : Nat) (j : Nat),
      j ∈ (placePhase name thr l g ex a).2.1 ↔ j ∈ l ∨ j ∈ ex := by
  intro l
  induction l with
  | nil =>
    intro g ex a j
    simp [placePhase]
  | cons i rest ih =>
    intro g ex a j
    simp only [placePhase]
    rw [ih]
    simp only [List.mem_cons]
    tauto

/-- The placement (if any) of the `if (rng() < 0.1)` lab/portal step,
recorded instead of applied: the same coin, draw and fallback as
`maybePlaceOne`. -/
def maybePlaceOneP (name : String) (k : Nat) (ex : List Nat) (a fuel : Nat) :
    Option (List (Nat × Nat)) :=
  if k < 429496730 then
    match pickRandomIndices a 1 64 ex fuel with
    | none => none
    | some pr =>
      match pr.1.head? with
      | none => some []
      | some i => some [(i, (cellCodeOf name 1).toNat)]
  else some []

theorem maybePlaceOne_trace (name : String) (k : Nat) (g ex : List Nat) (a fuel : Nat)
    (q : List Nat × List Nat × Nat) (h : maybePlaceOne name k g ex a fuel = some q) :
    ∃ l : List (Nat × Nat),
      maybePlaceOneP name k ex a fuel = some l ∧
      q.1 = setMany g l ∧
      (∀ p ∈ l, p.1 ∉ ex ∧ p.1 < 64 ∧ p.2 = (cellCodeOf name 1).toNat) ∧
      l.length ≤ 1 ∧
      (∀ j, j ∈ q.2.1 ↔ (∃ p ∈ l, p.1 = j) ∨ j ∈ ex) := by
  unfold maybePlaceOne at h
  unfold maybePlaceOneP
  by_cases hcoin : k < 429496730
  · rw [if_pos hcoin] at h ⊢
    cases hp : pickRandomIndices a 1 64 ex fuel with
    | none =>
      rw [hp] at h
      exact Option.noConfusion h
    | some pr =>
      obtain ⟨res, a2⟩ := pr
      rw [hp] at h
      dsimp only at h ⊢
      have hp2 : pickLoopG mulberryNext 1 64 fuel a [] ex.dedup = some (res, a2) := by
        simpa [pickRandomIndices] using hp
      have hsound := pickLoopG_sound mulberryNext 1 64 ex fuel a [] ex.dedup res a2 hp2
        List.nodup_nil (by simp) (by simp) (fun i hi => List.mem_dedup.mpr hi) (by simp)
      have hlt := pickLoopG_lt mulberryNext 1 64 (fun s => mulberryNext_fst_lt s)
        (by norm_num) fuel a [] ex.dedup res a2 hp2 (by simp)
      cases hh : res.head? with
      | none =>
        rw [hh] at h
        have hq : q = (g, ex, a2) := (Option.some.inj h).symm
        subst hq
        refine ⟨[], rfl, rfl, by simp, by simp, fun j => by simp⟩
      | some i =>
        rw [hh] at h
        have hq : q = (g.set i (cellCodeOf name 1).toNat, i :: ex, a2) :=
          (Option.some.inj h).symm
        subst hq
        have hires : i ∈ res := by
          cases res with
          | nil => simp at hh
          | cons x t =>
            simp only [List.head?] at hh
            rw [Option.some.inj hh]
            exact List.mem_cons_self _ _
        refine ⟨[(i, (cellCodeOf name 1).toNat)], rfl, rfl, ?_, by simp, ?_⟩
        · intro p hp3
          simp only [List.mem_singleton] at hp3
          subst hp3
          exact ⟨hsound.2.1 i hires, hlt i hires, rfl⟩
        · intro j
          show j ∈ i :: ex ↔ _
          simp only [List.mem_cons, List.mem_singleton]
          constructor
          · rintro (hj | hj)
            · exact Or.inl ⟨(i, (cellCodeOf name 1).toNat), Or.inl rfl, hj.symm⟩
            · exact Or.inr hj
          · rintro (⟨p, hp4, hpj⟩ | hj)
            · rcases hp4 with hp4 | hp4
              · subst hp4
                exact Or.inl hpj.symm
              · simp at hp4
            · exact Or.inr hj
  · rw [if_neg hcoin] at h ⊢
    have hq : q = (g, ex, a) := (Option.some.inj h).symm
    subst hq
    refine ⟨[], rfl, rfl, by simp, by simp, fun j => by simp⟩

theorem nodup_map_fst_of_short (l : List (Nat × Nat)) (hl : l.length ≤ 1) :
    (l.map Prod.fst).Nodup := by
  cases l with
  | nil => simp
  | cons p t =>
    cases t with
    | nil => simp
    | cons p2 t2 => simp at hl

/-- The lab/portal placements `genAfterMines` performs, recorded: the same
coins and draws against the same evolving exclusion set and accumulator. -/
def genAfterMinesP (p2 : List Nat × List Nat × Nat) (fuel : Nat) :
    Option (List (Nat × Nat)) :=
  (maybePlaceOneP "lab" (mulberryNext p2.2.2).1 p2.2.1 (mulberryNext p2.2.2).2 fuel).bind
    fun l1 =>
      (maybePlaceOne "lab" (mulberryNext p2.2.2).1 p2.1 p2.2.1
          (mulberryNext p2.2.2).2 fuel).bind
        fun q1 =>
          (maybePlaceOneP "portal" (mulberryNext q1.2.2).1 q1.2.1
              (mulberryNext q1.2.2).2 fuel).map
            fun l2 => l1 ++ l2

theorem genAfterMines_trace (p2 : List Nat × List Nat × Nat) (fuel : Nat)
    (g : List Nat) (b : Nat) (h : genAfterMines p2 fuel = some (g, b)) :
    ∃ l : List (Nat × Nat),
      genAfterMinesP p2 fuel = some l ∧
      g = setMany p2.1 l ∧
      (l.map Prod.fst).Nodup ∧
      (∀ p ∈ l, p.1 ∉ p2.2.1 ∧ p.1 < 64 ∧
        (p.2 = (cellCodeOf "lab" 1).toNat ∨ p.2 = (cellCodeOf "portal" 1).toNat)) := by
  simp only [genAfterMines] at h
  rw [Option.bind_eq_some] at h
  obtain ⟨q1, hq1m, h⟩ := h
  rw [Option.bind_eq_some] at h
  obtain ⟨q2, hq2m, h⟩ := h
  obtain ⟨l1, hl1P, hg1, hl1f, hl1len, hl1ex⟩ :=
    maybePlaceOne_trace "lab" _ p2.1 p2.2.1 _ fuel q1 hq1m
  obtain ⟨l2, hl2P, hg2, hl2f, hl2len, hl2ex⟩ :=
    maybePlaceOne_trace "portal" _ q1.1 q1.2.1 _ fuel q2 hq2m
  have hgq : g = q2.1 := genFinish_fst q2 g b h
  refine ⟨l1 ++ l2, ?_, ?_, ?_, ?_⟩
  · simp only [genAfterMinesP]
    rw [Option.bind_eq_some]
    refine ⟨l1, hl1P, ?_⟩
    rw [Option.bind_eq_some]
    refine ⟨q1, hq1m, ?_⟩
    rw [Option.map_eq_some']
    exact ⟨l2, hl2P, rfl⟩
  · rw [hgq, hg2, hg1, setMany_append]
  · rw [List.map_append, List.nodup_append]
    refine ⟨nodup_map_fst_of_short l1 hl1len, nodup_map_fst_of_short l2 hl2len, ?_⟩
    intro x hx hx2
    obtain ⟨p, hp, hpx⟩ := List.mem_map.mp hx
    obtain ⟨p2m, hp2m, hp2x⟩ := List.mem_map.mp hx2
    have hx1 : x ∈ q1.2.1 := (hl1ex x).mpr (Or.inl ⟨p, hp, hpx⟩)
    have hx2f : p2m.1 ∉ q1.2.1 := (hl2f p2m hp2m).1
    rw [hp2x] at hx2f
    exact hx2f hx1
  · intro p hp
    rcases List.mem_append.mp hp with hp | hp
    · obtain ⟨hex, hplt, hcode⟩ := hl1f p hp
      exact ⟨hex, hplt, Or.inl hcode⟩
    · obtain ⟨hex, hplt, hcode⟩ := hl2f p hp
      refine ⟨?_, hplt, Or.inr hcode⟩
      intro hc
      exact hex ((hl1ex p.1).mpr (Or.inr hc))

/-- The mine placements of `genAfterStorages` followed by the lab/portal
placements, recorded. -/
def genAfterStoragesP (p1 : List Nat × List Nat × Nat) (minesN fuel : Nat) :
    Option (List (Nat × Nat)) :=
  (pickRandomIndices p1.2.2 minesN 64 p1.2.1 fuel).bind
    fun pr2 =>
      (genAfterMinesP (placePhase "bit-mine" 644245095 pr2.1 p1.1 p1.2.1 pr2.2) fuel).map
        fun l => placePhaseP "bit-mine" 644245095 pr2.1 pr2.2 ++ l

theorem genAfterStorages_trace (p1 : List Nat × List Nat × Nat) (minesN fuel : Nat)
    (g : List Nat) (b : Nat) (h : genAfterStorages p1 minesN fuel = some (g, b)) :
    ∃ l : List (Nat × Nat),
      genAfterStoragesP p1 minesN fuel = some l ∧
      g = setMany p1.1 l ∧
      (l.map Prod.fst).Nodup ∧
      (∀ p ∈ l, p.1 ∉ p1.2.1 ∧ p.1 < 64 ∧ ¬ nameOf p.2 = "") := by
  simp only [genAfterStorages] at h
  rw [Option.bind_eq_some] at h
  obtain ⟨pr2, hpick, h⟩ := h
  obtain ⟨mineIdx, a6⟩ := pr2
  have hpickg : pickLoopG mulberryNext minesN 64 fuel p1.2.2 [] p1.2.1.dedup =
      some (mineIdx, a6) := by
    simpa [pickRandomIndices] using hpick
  have hs := pickLoopG_sound mulberryNext minesN 64 p1.2.1 fuel p1.2.2 [] p1.2.1.dedup
    mineIdx a6 hpickg List.nodup_nil (by simp) (by simp)
    (fun i hi => List.mem_dedup.mpr hi) (by simp)
  have hlt := pickLoopG_lt mulberryNext minesN 64 (fun s2 => mulberryNext_fst_lt s2)
    (by norm_num) fuel p1.2.2 [] p1.2.1.dedup mineIdx a6 hpickg (by simp)
  obtain ⟨l2, hl2P, hg2, hnd2, hf2⟩ := genAfterMines_trace _ fuel g b h
  refine ⟨placePhaseP "bit-mine" 644245095 mineIdx a6 ++ l2, ?_, ?_, ?_, ?_⟩
  · simp only [genAfterStoragesP]
    rw [Option.bind_eq_some]
    refine ⟨(mineIdx, a6), hpick, ?_⟩
    rw [Option.map_eq_some']
    exact ⟨l2, hl2P, rfl⟩
  · rw [hg2, placePhase_fst_setMany, setMany_append]
  · rw [List.map_append, placePhaseP_fst, List.nodup_append]
    refine ⟨hs.1, hnd2, ?_⟩
    intro x hx hx2
    obtain ⟨p, hp, hpx⟩ := List.mem_map.mp hx2
    have hmem : x ∈ (placePhase "bit-mine" 644245095 mineIdx p1.1 p1.2.1 a6).2.1 :=
      (placePhase_ex_mem "bit-mine" 644245095 mineIdx p1.1 p1.2.1 a6 x).mpr (Or.inl hx)
    have hnot : p.1 ∉ (placePhase "bit-mine" 644245095 mineIdx p1.1 p1.2.1 a6).2.1 :=
      (hf2 p hp).1
    rw [hpx] at hnot
    exact hnot hmem
  · intro p hp
    rcases List.mem_append.mp hp with hp | hp
    · have hpidx : p.1 ∈ mineIdx := by
        rw [← placePhaseP_fst "bit-mine" 644245095 mineIdx a6]
        exact List.mem_map_of_mem Prod.fst hp
      refine ⟨hs.2.1 p.1 hpidx, hlt p.1 hpidx, ?_⟩
      rcases placePhaseP_codes "bit-mine" 644245095 mineIdx a6 p hp with hc | hc <;>
        rw [hc] <;> decide
    · obtain ⟨hex, hplt, hcode⟩ := hf2 p hp
      refine ⟨?_, hplt, ?_⟩
      · intro hc
        exact hex ((placePhase_ex_mem "bit-mine" 644245095 mineIdx p1.1 p1.2.1 a6 p.1).mpr
          (Or.inr hc))
      · rcases hcode with hc | hc <;> rw [hc] <;> decide

/-- Every `(index, cell code)` write of `generateRandomBase`, in source
order: the hub, the storages, the mines and the optional lab/portal, drawn
from the same seed-determined randomness; `none` when the run itself runs out
of fuel. -/
def genPlacements (s : List Nat) (fuel : Nat) : Option (List (Nat × Nat)) :=
  let a0 := stringToSeed s
  let r1 := mulberryNext a0
  let hallIndex := floorMul r1.1 64
  let grid1 := (List.replicate 64 0).set hallIndex (cellCodeOf "grid-hall" 1).toNat
  let r2 := mulberryNext r1.2
  let storages := 1 + floorMul r2.1 2
  let r3 := mulberryNext r2.2
  let minesN := 1 + floorMul r3.1 2
  (pickRandomIndices r3.2 storages 64 [hallIndex] fuel).bind
    fun pr1 =>
      (genAfterStoragesP (placePhase "bit-storage" 1073741824 pr1.1 grid1 [hallIndex] pr1.2)
          minesN fuel).map
        fun l =>
          (hallIndex, (cellCodeOf "grid-hall" 1).toNat) ::
            (placePhaseP "bit-storage" 1073741824 pr1.1 pr1.2 ++ l)

/-- C6: every successfully generated grid contains exactly one grid-hall, at
most 2 bit-storages, at most 2 bit-mines, at most 1 lab and at most 1 portal;
moreover the run's placements (recorded by `genPlacements`, the same draws
recorded instead of applied) write pairwise-distinct in-range cells of the
all-empty grid — each placement goes to a distinct previously empty cell, so
no cell ever holds more than one building. -/
theorem generate_structure_bounds (s : List Nat) (fuel : Nat) (g : List Nat) (b : Nat)
    (h : generateRandomBase s fuel = some (g, b)) :
    placedCount g "grid-hall" = 1 ∧ placedCount g "bit-storage" ≤ 2 ∧
      placedCount g "bit-mine" ≤ 2 ∧ placedCount g "lab" ≤ 1 ∧
      placedCount g "portal" ≤ 1 ∧
      ∃ ps : List (Nat × Nat),
        genPlacements s fuel = some ps ∧
        (ps.map Prod.fst).Nodup ∧
        (∀ p ∈ ps, p.1 < 64 ∧ ¬ nameOf p.2 = "") ∧
        g = setMany (List.replicate 64 0) ps := by
  simp only [generateRandomBase] at h
  set a0 := stringToSeed s with ha0
  set r1 := mulberryNext a0 with hr1
  set hallIndex := floorMul r1.1 64 with hhall
  set grid1 := (List.replicate 64 0).set hallIndex (cellCodeOf "grid-hall" 1).toNat
    with hgrid1
  set r2 := mulberryNext r1.2 with hr2
  set storages := 1 + floorMul r2.1 2 with hstor
  set r3 := mulberryNext r2.2 with hr3
  set minesN := 1 + floorMul r3.1 2 with hminN
  rw [Option.bind_eq_some] at h
  obtain ⟨pr1, hpick1, h⟩ := h
  obtain ⟨storIdx, a4⟩ := pr1
  have hpick1g : pickLoopG mulberryNext storages 64 fuel r3.2 [] ([hallIndex].dedup) =
      some (storIdx, a4) := by
    simpa [pickRandomIndices] using hpick1
  have hs1 := pickLoopG_sound mulberryNext storages 64 [hallIndex] fuel r3.2 []
    ([hallIndex].dedup) storIdx a4 hpick1g List.nodup_nil (by simp) (by simp)
    (fun i hi => List.mem_dedup.mpr hi) (by simp)
  have hlt1 := pickLoopG_lt mulberryNext storages 64 (fun s2 => mulberryNext_fst_lt s2)
    (by norm_num) fuel r3.2 [] ([hallIndex].dedup) storIdx a4 hpick1g (by simp)
  have hhall64 : hallIndex < 64 := by
    rw [hhall, hr1]
    exact floorMul_lt _ _ (mulberryNext_fst_lt _) (by norm_num)
  have hhallg : hallIndex < (List.replicate 64 (0 : Nat)).length := by
    rw [List.length_replicate]
    exact hhall64
  have hrepEmpty : ∀ j : Nat, nameOf ((List.replicate 64 (0 : Nat)).getD j 0) = "" := by
    intro j
    rw [getD_replicate_zero]
    rfl
  have hg1len : grid1.length = 64 := by
    rw [hgrid1, List.length_set, List.length_replicate]
  have hg1hall : placedCount grid1 "grid-hall" = 1 := by
    rw [hgrid1, placedCount_set _ _ _ _ hhallg (hrepEmpty hallIndex) (by decide),
      placedCount_replicate 64 _ (by decide)]
    simp [show nameOf (cellCodeOf "grid-hall" 1).toNat = "grid-hall" from by decide]
  have hg1other : ∀ n, ¬ n = "" → ¬ n = "grid-hall" → placedCount grid1 n = 0 := by
    intro n hn hng
    rw [hgrid1, placedCount_set _ _ _ _ hhallg (hrepEmpty hallIndex) hn,
      placedCount_replicate 64 n hn]
    have hne : ¬ nameOf (cellCodeOf "grid-hall" 1).toNat = n := by
      rw [show nameOf (cellCodeOf "grid-hall" 1).toNat = "grid-hall" from by decide]
      exact fun hc => hng hc.symm
    simp [hne]
  have hE1 : ∀ j, j ∉ [hallIndex] → nameOf (grid1.getD j 0) = "" := by
    intro j hj
    have hji : ¬ j = hallIndex := by simpa using hj
    rw [hgrid1, getD_set_eq_if _ _ _ _ hhallg, if_neg hji]
    exact hrepEmpty j
  have hstorlen : storIdx.length ≤ 2 := by
    have h2 : floorMul r2.1 2 < 2 := by
      rw [hr2]
      exact floorMul_lt _ _ (mulberryNext_fst_lt _) (by norm_num)
    have h3 := hs1.2.2
    rw [hstor] at h3
    omega
  obtain ⟨hc1s, hE1s, hex1s, hlen1s⟩ :=
    placePhase_spec "bit-storage" 1073741824 (by decide) (by decide) storIdx grid1
      [hallIndex] a4 hs1.1 (fun i hi => by rw [hg1len]; exact hlt1 i hi)
      (fun i hi => hE1 i (hs1.2.1 i hi))
  have hE2 := hE1s hE1
  have hp1len :
      (placePhase "bit-storage" 1073741824 storIdx grid1 [hallIndex] a4).1.length = 64 := by
    rw [hlen1s, hg1len]
  have hminN2 : minesN ≤ 2 := by
    have h2 : floorMul r3.1 2 < 2 := by
      rw [hr3]
      exact floorMul_lt _ _ (mulberryNext_fst_lt _) (by norm_num)
    rw [hminN]
    omega
  obtain ⟨hother, hmine, hlab, hportal⟩ :=
    genAfterStorages_spec (placePhase "bit-storage" 1073741824 storIdx grid1 [hallIndex] a4)
      minesN fuel g b h hp1len hE2
  obtain ⟨ltr, hltrP, hgtr, hltrnd, hltrf⟩ :=
    genAfterStorages_trace (placePhase "bit-storage" 1073741824 storIdx grid1 [hallIndex] a4)
      minesN fuel g b h
  refine ⟨?_, ?_, ?_, ?_, ?_, ?_⟩
  · rw [hother "grid-hall" (by decide) (by decide) (by decide) (by decide),
      hc1s "grid-hall" (by decide)]
    have hne : ¬ ("grid-hall" : String) = "bit-storage" := by decide
    simp [hg1hall, hne]
  · rw [hother "bit-storage" (by decide) (by decide) (by decide) (by decide),
      hc1s "bit-storage" (by decide),
      hg1other "bit-storage" (by decide) (by decide)]
    simp only [eq_self_iff_true, if_true]
    omega
  · have h2 := hmine
    rw [hc1s "bit-mine" (by decide),
      hg1other "bit-mine" (by decide) (by decide)] at h2
    have hne : ¬ ("bit-mine" : String) = "bit-storage" := by decide
    simp [hne] at h2
    omega
  · have h2 := hlab
    rw [hc1s "lab" (by decide), hg1other "lab" (by decide) (by decide)] at h2
    have hne : ¬ ("lab" : String) = "bit-storage" := by decide
    simp [hne] at h2
    omega
  · have h2 := hportal
    rw [hc1s "portal" (by decide), hg1other "portal" (by decide) (by decide)] at h2
    have hne : ¬ ("portal" : String) = "bit-storage" := by decide
    simp [hne] at h2
    omega
  · refine ⟨(hallIndex, (cellCodeOf "grid-hall" 1).toNat) ::
      (placePhaseP "bit-storage" 1073741824 storIdx a4 ++ ltr), ?_, ?_, ?_, ?_⟩
    · simp only [genPlacements]
      rw [← ha0, ← hr1, ← hhall, ← hgrid1, ← hr2, ← hstor, ← hr3, ← hminN]
      rw [Option.bind_eq_some]
      refine ⟨(storIdx, a4), hpick1, ?_⟩
      rw [Option.map_eq_some']
      exact ⟨ltr, hltrP, rfl⟩
    · rw [List.map_cons, List.map_append, placePhaseP_fst, List.nodup_cons]
      constructor
      · intro hc
        rcases List.mem_append.mp hc with hc | hc
        · exact (hs1.2.1 hallIndex hc) (List.mem_singleton.mpr rfl)
        · obtain ⟨p, hp, hpx⟩ := List.mem_map.mp hc
          have hni := (hltrf p hp).1
          apply hni
          rw [hpx]
          exact (placePhase_ex_mem "bit-storage" 1073741824 storIdx grid1 [hallIndex] a4
            hallIndex).mpr (Or.inr (List.mem_singleton.mpr rfl))
      · rw [List.nodup_append]
        refine ⟨hs1.1, hltrnd, ?_⟩
        intro x hx hx2
        obtain ⟨p, hp, hpx⟩ := List.mem_map.mp hx2
        have hni := (hltrf p hp).1
        apply hni
        rw [hpx]
        exact (placePhase_ex_mem "bit-storage" 1073741824 storIdx grid1 [hallIndex] a4
          x).mpr (Or.inl hx)
    · intro p hp
      rcases List.mem_cons.mp hp with hp | hp
      · subst hp
        refine ⟨hhall64, ?_⟩
        show ¬ nameOf (cellCodeOf "grid-hall" 1).toNat = ""
        decide
      rcases List.mem_append.mp hp with hp | hp
      · have hpidx : p.1 ∈ storIdx := by
          rw [← placePhaseP_fst "bit-storage" 1073741824 storIdx a4]
          exact List.mem_map_of_mem Prod.fst hp
        refine ⟨hlt1 p.1 hpidx, ?_⟩
        rcases placePhaseP_codes "bit-storage" 1073741824 storIdx a4 p hp with hc | hc <;>
          rw [hc] <;> decide
      · exact ⟨(hltrf p hp).2.1, (hltrf p hp).2.2⟩
    · calc g = setMany (placePhase "bit-storage" 1073741824 storIdx grid1 [hallIndex] a4).1
            ltr := hgtr
        _ = setMany (setMany grid1 (placePhaseP "bit-storage" 1073741824 storIdx a4))
            ltr := by rw [placePhase_fst_setMany]
        _ = setMany grid1 (placePhaseP "bit-storage" 1073741824 storIdx a4 ++ ltr) :=
            (setMany_append _ _ _).symm
        _ = setMany (List.replicate 64 0)
            ((hallIndex, (cellCodeOf "grid-hall" 1).toNat) ::
              (placePhaseP "bit-storage" 1073741824 storIdx a4 ++ ltr)) := by
            rw [hgrid1, setMany_cons]

/-- The grid generated for seed `"1"` (char code 49). -/
def seedOneGrid : List Nat :=
  [0, 0, 0, 0, 0, 0, 0, 0, 0, 0, 0, 0, 0, 0, 0, 3, 0, 0, 0, 0, 0, 0, 0, 0,
   0, 0, 0, 0, 0, 0, 0, 0, 0, 0, 0, 0, 0, 0, 0, 0, 0, 0, 0, 0, 0, 0, 0, 2,
   0, 0, 0, 0, 0, 1, 0, 0, 0, 3, 0, 0, 0, 0, 0, 0]

/-- Witness for C6 at the seed `"1"`: the generation succeeds, the bounds
hold on its concrete output, and its recorded placements (hub at 53, a
storage at 47, mines at 57 and 15) hit pairwise-distinct empty cells. -/
theorem generate_structure_bounds_witness :
    generateRandomBase [49] 500 = some (seedOneGrid, 576) ∧
      genPlacements [49] 500 = some [(53, 1), (47, 2), (57, 3), (15, 3)] ∧
      placedCount seedOneGrid "grid-hall" = 1 ∧
      placedCount seedOneGrid "bit-storage" ≤ 2 ∧
      placedCount seedOneGrid "bit-mine" ≤ 2 ∧
      placedCount seedOneGrid "lab" ≤ 1 ∧
      placedCount seedOneGrid "portal" ≤ 1 ∧
      ∃ ps : List (Nat × Nat),
        genPlacements [49] 500 = some ps ∧
        (ps.map Prod.fst).Nodup ∧
        (∀ p ∈ ps, p.1 < 64 ∧ ¬ nameOf p.2 = "") ∧
        seedOneGrid = setMany (List.replicate 64 0) ps := by
  have h : generateRandomBase [49] 500 = some (seedOneGrid, 576) := by decide
  have hps : genPlacements [49] 500 = some [(53, 1), (47, 2), (57, 3), (15, 3)] := by decide
  obtain ⟨c1, c2, c3, c4, c5, c6⟩ := generate_structure_bounds [49] 500 seedOneGrid 576 h
  exact ⟨h, hps, c1, c2, c3, c4, c5, c6⟩

/-- Witness for C9 (amended part) at a concrete mulberry32 stream. -/
theorem pick_indices_witness :
    pickRandomIndicesG mulberryNext 2 64 [5] 50 0 = some ([17, 0], 3663131626) ∧
      ([17, 0] : List Nat).Nodup ∧ ∀ i ∈ ([17, 0] : List Nat), i ∉ ([5] : List Nat) := by
  have h : pickRandomIndicesG mulberryNext 2 64 [5] 50 0 = some ([17, 0], 3663131626) := by
    decide
  exact ⟨h, pick_indices_distinct_and_fresh mulberryNext 2 64 50 [5] 0 [17, 0] 3663131626 h⟩

/-! ## Arena engine (`src/app/game/sector/[id]/page.tsx` lines 143-434)

Agent positions are multiples of `0.5`; we store them doubled, as integer
half-cell coordinates, so `posToKey` (which multiplies by 2 and rounds) is the
identity and two points collide exactly when the pairs are equal.  The step
models one `setInterval` callback of the movement loop: both agents update
against the shared snapshot of the trails, directions and positions captured
at the start of the callback, exactly as the two functional state updates do
in the source.  The sector counter persisted on a win is a `Nat` field. -/

inductive Direction where
  | up
  | down
  | left
  | right
deriving DecidableEq, Repr

abbrev HalfPos := Int × Int

/-- `addDir`: half-a-cell step in the given facing. -/
def addDir (p : HalfPos) (d : Direction) : HalfPos :=
  match d with
  | .up => (p.1, p.2 - 1)
  | .down => (p.1, p.2 + 1)
  | .left => (p.1 - 1, p.2)
  | .right => (p.1 + 1, p.2)

/-- `isOutOfBounds` (grid size 8, i.e. 16 half-cells). -/
def isOutOfBounds (p : HalfPos) : Bool :=
  p.1 < 0 || 16 ≤ p.1 || p.2 < 0 || 16 ≤ p.2

/-- `Math.floor(p.y) * GRID_SIZE + Math.floor(p.x)` (used on in-bounds points,
where both coordinates are non-negative). -/
def cellIndexOf (p : HalfPos) : Nat :=
  (p.2.toNat / 2) * 8 + p.1.toNat / 2

def cellNameAt (grid : List Nat) (p : HalfPos) : String :=
  nameOf (grid.getD (cellIndexOf p) 0)

/-- `isBlockedByBuilding`: out of bounds blocks; otherwise any non-empty,
non-hall building blocks. -/
def isBlockedByBuilding (grid : List Nat) (p : HalfPos) : Bool :=
  if isOutOfBounds p = true then true
  else
    if cellNameAt grid p = "" then false
    else decide (¬ cellNameAt grid p = "grid-hall")

def leftOf : Direction → Direction
  | .up => .left
  | .down => .right
  | .left => .down
  | .right => .up

def rightOf : Direction → Direction
  | .up => .right
  | .down => .left
  | .left => .up
  | .right => .down

/-- Arena session state (the React state of the sector page plus the
persisted sector id and the `winRecordedRef` flag). -/
structure ArenaState where
  playerPos : Option HalfPos
  playerDir : Direction
  playerTrail : List HalfPos
  opponentPos : Option HalfPos
  opponentDir : Direction
  opponentTrail : List HalfPos
  opponentDead : Bool
  gameOver : Bool
  didWin : Bool
  started : Bool
  winRecorded : Bool
  sector : Nat
deriving DecidableEq, Repr

/-- `chooseOpponentDir`: first candidate whose target is in bounds, not a
blocking building and not on a trail; fall back to the current facing. -/
def chooseOpponentDir (grid : List Nat) (pos : HalfPos) (dir : Direction)
    (occupied : List HalfPos) : Direction :=
  let candidates := [dir, leftOf dir, rightOf dir, leftOf (leftOf dir)]
  match candidates.find? (fun cand =>
      let np := addDir pos cand
      !(isOutOfBounds np || isBlockedByBuilding grid np || occupied.contains np)) with
  | some cand => cand
  | none => dir

/-- The `setPlayerPos` functional update of the movement loop (lines 358-399),
together with the game-over/win bookkeeping it performs; the win is recorded
(sector incremented) only once per session thanks to `winRecordedRef`. -/
def playerNext (grid : List Nat) (st : ArenaState) : ArenaState :=
  match st.playerPos with
  | none => st
  | some pp =>
    if st.gameOver = true then st
    else
      let occupied := st.playerTrail ++ st.opponentTrail
      let nextP := addDir pp st.playerDir
      if isOutOfBounds nextP = true then { st with gameOver := true, didWin := false }
      else if cellNameAt grid nextP = "grid-hall" then
        let stMoved := { st with playerTrail := st.playerTrail ++ [nextP],
                                 playerPos := some nextP }
        if st.opponentDead = true ∨ st.opponentPos = none then
          if st.winRecorded = true then { stMoved with gameOver := true, didWin := true }
          else
            { stMoved with
                gameOver := true
                didWin := true
                winRecorded := true
                sector := st.sector + 1 }
        else stMoved
      else if ¬ cellNameAt grid nextP = "" then { st with gameOver := true, didWin := false }
      else if nextP ∈ occupied ∨ st.opponentPos = some nextP then
        { st with gameOver := true, didWin := false }
      else { st with playerTrail := st.playerTrail ++ [nextP], playerPos := some nextP }

/-- Result of the `setOpponentPos` functional update (lines 401-431). -/
structure OppRes where
  pos : Option HalfPos
  dir : Direction
  trail : List HalfPos
  dead : Bool

/-- The opponent's update, evaluated against the same snapshot `st` as the
player's (gameOver, trails and the player's position are the values captured
at the start of the callback). -/
def opponentNext (grid : List Nat) (st : ArenaState) : OppRes :=
  match st.opponentPos with
  | none => ⟨st.opponentPos, st.opponentDir, st.opponentTrail, st.opponentDead⟩
  | some op =>
    if st.gameOver = true ∨ st.opponentDead = true then
      ⟨st.opponentPos, st.opponentDir, st.opponentTrail, st.opponentDead⟩
    else
      let occupied := st.playerTrail ++ st.opponentTrail
      let nd := chooseOpponentDir grid op st.opponentDir occupied
      let nextO := addDir op nd
      if isOutOfBounds nextO = true then ⟨none, nd, [], true⟩
      else if ¬ cellNameAt grid nextO = "" ∧ ¬ cellNameAt grid nextO = "grid-hall" then
        ⟨none, nd, [], true⟩
      else if nextO ∈ occupied ∨ st.playerPos = some nextO then ⟨none, nd, [], true⟩
      else ⟨some nextO, nd, st.opponentTrail ++ [nextO], false⟩

/-- One tick of the movement loop: nothing happens unless the session is
running (`started`, not `gameOver`, player present — the `useEffect` guard);
otherwise both agents update from the shared snapshot. -/
def stepArena (grid : List Nat) (st : ArenaState) : ArenaState :=
  if st.started = true ∧ st.gameOver = false ∧ st.playerPos ≠ none then
    let p := playerNext grid st
    let o := opponentNext grid st
    { p with opponentPos := o.pos, opponentDir := o.dir,
             opponentTrail := o.trail, opponentDead := o.dead }
  else st

def stepArenaN (grid : List Nat) : Nat → ArenaState → ArenaState
  | 0, st => st
  | n + 1, st => stepArenaN grid n (stepArena grid st)

theorem playerNext_sector_facts (grid : List Nat) (st : ArenaState) :
    (playerNext grid st).sector ≤ st.sector + 1 ∧
      ((playerNext grid st).winRecorded = false →
        (playerNext grid st).sector = st.sector) ∧
      (st.winRecorded = true → (playerNext grid st).sector = st.sector ∧
        (playerNext grid st).winRecorded = true) := by
  unfold playerNext
  cases hp : st.playerPos with
  | none => exact ⟨Nat.le_add_right _ _, fun _ => rfl, fun h => ⟨rfl, h⟩⟩
  | some pp =>
    dsimp only
    split_ifs with h1 h2 h3 h4 h5 h6 h7 <;>
      simp_all

theorem stepArena_sector_facts (grid : List Nat) (st : ArenaState) :
    (stepArena grid st).sector ≤ st.sector + 1 ∧
      ((stepArena grid st).winRecorded = false → (stepArena grid st).sector = st.sector) ∧
      (st.winRecorded = true → (stepArena grid st).sector = st.sector ∧
        (stepArena grid st).winRecorded = true) := by
  unfold stepArena
  split_ifs with hguard
  · dsimp only
    exact playerNext_sector_facts grid st
  · exact ⟨Nat.le_add_right _ _, fun _ => rfl, fun h => ⟨rfl, h⟩⟩

theorem stepArena_phi (grid : List Nat) (st : ArenaState) :
    (stepArena grid st).sector + (cond (stepArena grid st).winRecorded 0 1) ≤
      st.sector + (cond st.winRecorded 0 1) := by
  obtain ⟨hle, hf, ht⟩ := stepArena_sector_facts grid st
  cases hw : st.winRecorded with
  | true =>
    obtain ⟨hs, hr⟩ := ht hw
    simp [hs, hr, hw]
  | false =>
    cases hw2 : (stepArena grid st).winRecorded with
    | true =>
      simp only [hw, hw2, Bool.cond_true, Bool.cond_false]
      omega
    | false =>
      have hs := hf hw2
      simp only [hw, hw2, Bool.cond_true, Bool.cond_false, hs]
      omega

theorem stepArenaN_phi (grid : List Nat) :
    ∀ (n : Nat) (st : ArenaState),
      (stepArenaN grid n st).sector + (cond (stepArenaN grid n st).winRecorded 0 1) ≤
        st.sector + (cond st.winRecorded 0 1) := by
  intro n
  induction n with
  | zero => intro st; exact Nat.le_refl _
  | succ m ih =>
    intro st
    exact le_trans (ih (stepArena grid st)) (stepArena_phi grid st)

theorem stepArenaN_sector_le (grid : List Nat) (n : Nat) (st : ArenaState) :
    (stepArenaN grid n st).sector ≤ st.sector + 1 := by
  have h := stepArenaN_phi grid n st
  revert h
  cases (stepArenaN grid n st).winRecorded <;> cases st.winRecorded <;>
    simp only [Bool.cond_true, Bool.cond_false] <;> omega

theorem playerNext_hall (grid : List Nat) (st : ArenaState) (pp : HalfPos)
    (hgo : st.gameOver = false) (hpp : st.playerPos = some pp)
    (hoob : isOutOfBounds (addDir pp st.playerDir) = false)
    (hcell : cellNameAt grid (addDir pp st.playerDir) = "grid-hall") :
    (((playerNext grid st).gameOver = true ∧ (playerNext grid st).didWin = true) ↔
        (st.opponentDead = true ∨ st.opponentPos = none)) ∧
      (playerNext grid st).playerPos = some (addDir pp st.playerDir) ∧
      (¬ (st.opponentDead = true ∨ st.opponentPos = none) →
        (playerNext grid st).gameOver = false) ∧
      ((st.opponentDead = true ∨ st.opponentPos = none) → st.winRecorded = false →
        (playerNext grid st).winRecorded = true ∧
          (playerNext grid st).sector = st.sector + 1) ∧
      ((st.opponentDead = true ∨ st.opponentPos = none) → st.winRecorded = true →
        (playerNext grid st).sector = st.sector) := by
  unfold playerNext
  rw [hpp]
  dsimp only
  rw [if_neg (by simp [hgo]), if_neg (by simp [hoob]), if_pos hcell]
  by_cases helim : st.opponentDead = true ∨ st.opponentPos = none
  · rw [if_pos helim]
    by_cases hwr : st.winRecorded = true
    · rw [if_pos hwr]
      simp [helim, hwr]
    · rw [if_neg hwr]
      simp [helim, hwr]
  · rw [if_neg helim]
    simp [helim, hgo]

/-- C4: when the player's next position is the grid-hall (hub) cell, the step
ends the session with a win iff the opponent is already eliminated
(`opponentDead` or no opponent position); if the opponent is alive the move
onto the hub succeeds and the session keeps running; a fresh win sets the
once-only flag and increments the sector, a repeated win detection leaves the
sector unchanged; and over any number of steps the sector grows by at most
one per session. -/
theorem arena_hub_win_resolution :
    (∀ (grid : List Nat) (st : ArenaState) (pp : HalfPos),
        st.started = true → st.gameOver = false → st.playerPos = some pp →
        isOutOfBounds (addDir pp st.playerDir) = false →
        cellNameAt grid (addDir pp st.playerDir) = "grid-hall" →
        (((stepArena grid st).gameOver = true ∧ (stepArena grid st).didWin = true) ↔
            (st.opponentDead = true ∨ st.opponentPos = none)) ∧
          (stepArena grid st).playerPos = some (addDir pp st.playerDir) ∧
          (¬ (st.opponentDead = true ∨ st.opponentPos = none) →
            (stepArena grid st).gameOver = false) ∧
          ((st.opponentDead = true ∨ st.opponentPos = none) → st.winRecorded = false →
            (stepArena grid st).winRecorded = true ∧
              (stepArena grid st).sector = st.sector + 1) ∧
          ((st.opponentDead = true ∨ st.opponentPos = none) → st.winRecorded = true →
            (stepArena grid st).sector = st.sector)) ∧
      ∀ (grid : List Nat) (n : Nat) (st : ArenaState),
        (stepArenaN grid n st).sector ≤ st.sector + 1 := by
  constructor
  · intro grid st pp hstart hgo hpp hoob hcell
    have hguard : st.started = true ∧ st.gameOver = false ∧ st.playerPos ≠ none := by
      refine ⟨hstart, hgo, ?_⟩
      rw [hpp]
      exact fun h => Option.noConfusion h
    have hstep : stepArena grid st =
        { playerNext grid st with
            opponentPos := (opponentNext grid st).pos
            opponentDir := (opponentNext grid st).dir
            opponentTrail := (opponentNext grid st).trail
            opponentDead := (opponentNext grid st).dead } := by
      unfold stepArena
      rw [if_pos hguard]
    have h := playerNext_hall grid st pp hgo hpp hoob hcell
    rw [hstep]
    exact h
  · intro grid n st
    exact stepArenaN_sector_le grid n st

def c4Grid : List Nat := (List.replicate 64 0).set 0 1

def c4State : ArenaState :=
  { playerPos := some (2, 1)
    playerDir := .left
    playerTrail := [(2, 1)]
    opponentPos := none
    opponentDir := .up
    opponentTrail := []
    opponentDead := true
    gameOver := false
    didWin := false
    started := true
    winRecorded := false
    sector := 1 }

/-- Witness for C4: a concrete state whose player faces the hub with the
opponent already gone; the step wins, moves the player onto the hub and
increments the sector once, and iterating never raises the sector further. -/
theorem arena_hub_win_resolution_witness :
    ((stepArena c4Grid c4State).gameOver = true ∧ (stepArena c4Grid c4State).didWin = true) ∧
      (stepArena c4Grid c4State).playerPos = some (1, 1) ∧
      (stepArena c4Grid c4State).winRecorded = true ∧
      (stepArena c4Grid c4State).sector = c4State.sector + 1 ∧
      (stepArenaN c4Grid 5 c4State).sector ≤ c4State.sector + 1 := by
  have h := arena_hub_win_resolution.1 c4Grid c4State (2, 1) rfl rfl rfl (by decide) (by decide)
  have h4 := h.2.2.2.1 (Or.inl rfl) rfl
  exact ⟨h.1.mpr (Or.inl rfl), h.2.1, h4.1, h4.2,
    arena_hub_win_resolution.2 c4Grid 5 c4State⟩

/-- C3 (amended): in a running step, a colliding agent is eliminated — for the
player whenever the target half-cell is out of bounds or is not the hub cell
(the hub branch is checked first and exempts the player from the trail and
opponent-position checks), and for the opponent at every cell. -/
theorem arena_collision_eliminates_except_player_hub :
    ∀ (grid : List Nat) (st : ArenaState),
      st.started = true → st.gameOver = false →
      (∀ pp : HalfPos, st.playerPos = some pp →
        (addDir pp st.playerDir ∈ st.playerTrail ++ st.opponentTrail ∨
            st.opponentPos = some (addDir pp st.playerDir)) →
        (isOutOfBounds (addDir pp st.playerDir) = true ∨
            ¬ cellNameAt grid (addDir pp st.playerDir) = "grid-hall") →
        (stepArena grid st).gameOver = true ∧ (stepArena grid st).didWin = false ∧
          (stepArena grid st).playerPos = st.playerPos) ∧
      (∀ op : HalfPos, st.opponentPos = some op → st.opponentDead = false →
        st.playerPos ≠ none →
        (addDir op (chooseOpponentDir grid op st.opponentDir
              (st.playerTrail ++ st.opponentTrail)) ∈
            st.playerTrail ++ st.opponentTrail ∨
          st.playerPos = some (addDir op (chooseOpponentDir grid op st.opponentDir
              (st.playerTrail ++ st.opponentTrail)))) →
        (stepArena grid st).opponentDead = true ∧ (stepArena grid st).opponentPos = none) := by
  intro grid st hstart hgo
  constructor
  · intro pp hpp hcol hnh
    have hguard : st.started = true ∧ st.gameOver = false ∧ st.playerPos ≠ none := by
      refine ⟨hstart, hgo, ?_⟩
      rw [hpp]
      exact fun h => Option.noConfusion h
    have hstep : stepArena grid st =
        { playerNext grid st with
            opponentPos := (opponentNext grid st).pos
            opponentDir := (opponentNext grid st).dir
            opponentTrail := (opponentNext grid st).trail
            opponentDead := (opponentNext grid st).dead } := by
      unfold stepArena
      rw [if_pos hguard]
    rw [hstep]
    show (playerNext grid st).gameOver = true ∧ (playerNext grid st).didWin = false ∧
      (playerNext grid st).playerPos = st.playerPos
    unfold playerNext
    rw [hpp]
    dsimp only
    rw [if_neg (by simp [hgo])]
    rcases hnh with hoob | hnh
    · rw [if_pos hoob]
      exact ⟨rfl, rfl, rfl⟩
    · by_cases hoob : isOutOfBounds (addDir pp st.playerDir) = true
      · rw [if_pos hoob]
        exact ⟨rfl, rfl, rfl⟩
      · rw [if_neg hoob, if_neg hnh]
        by_cases hbl : ¬ cellNameAt grid (addDir pp st.playerDir) = ""
        · rw [if_pos hbl]
          exact ⟨rfl, rfl, rfl⟩
        · rw [if_neg hbl, if_pos hcol]
          exact ⟨rfl, rfl, rfl⟩
  · intro op hop hod hppn hcol
    have hguard : st.started = true ∧ st.gameOver = false ∧ st.playerPos ≠ none :=
      ⟨hstart, hgo, hppn⟩
    have hstep : stepArena grid st =
        { playerNext grid st with
            opponentPos := (opponentNext grid st).pos
            opponentDir := (opponentNext grid st).dir
            opponentTrail := (opponentNext grid st).trail
            opponentDead := (opponentNext grid st).dead } := by
      unfold stepArena
      rw [if_pos hguard]
    rw [hstep]
    show (opponentNext grid st).dead = true ∧ (opponentNext grid st).pos = none
    unfold opponentNext
    rw [hop]
    dsimp only
    rw [if_neg (by simp [hgo, hod])]
    by_cases h1 : isOutOfBounds (addDir op (chooseOpponentDir grid op st.opponentDir
        (st.playerTrail ++ st.opponentTrail))) = true
    · rw [if_pos h1]
      exact ⟨rfl, rfl⟩
    · rw [if_neg h1]
      by_cases h2 : ¬ cellNameAt grid (addDir op (chooseOpponentDir grid op st.opponentDir
            (st.playerTrail ++ st.opponentTrail))) = "" ∧
          ¬ cellNameAt grid (addDir op (chooseOpponentDir grid op st.opponentDir
            (st.playerTrail ++ st.opponentTrail))) = "grid-hall"
      · rw [if_pos h2]
        exact ⟨rfl, rfl⟩
      · rw [if_neg h2, if_pos hcol]
        exact ⟨rfl, rfl⟩

def c3Grid : List Nat := (List.replicate 64 0).set 0 1

def c3State : ArenaState :=
  { playerPos := some (2, 1)
    playerDir := .left
    playerTrail := [(2, 1)]
    opponentPos := some (13, 13)
    opponentDir := .left
    opponentTrail := [(13, 13), (1, 1)]
    opponentDead := false
    gameOver := false
    didWin := false
    started := true
    winRecorded := false
    sector := 1 }

/-- Counterexample to C3 as stated: the player's next half-cell (1,1) is
already marked in the opponent's trail, yet because it lies on the hub
(grid-hall) cell the player moves onto it and survives — the collision rule
has an exception for the hub cell. -/
theorem arena_player_hub_trail_survives :
    (addDir (2, 1) c3State.playerDir ∈ c3State.playerTrail ++ c3State.opponentTrail ∨
        c3State.opponentPos = some (addDir (2, 1) c3State.playerDir)) ∧
      c3State.started = true ∧ c3State.gameOver = false ∧
      c3State.playerPos = some (2, 1) ∧
      isOutOfBounds (addDir (2, 1) c3State.playerDir) = false ∧
      (stepArena c3Grid c3State).gameOver = false ∧
      (stepArena c3Grid c3State).didWin = false ∧
      (stepArena c3Grid c3State).playerPos = some (1, 1) := by decide

def c3wGrid : List Nat := List.replicate 64 0

def c3wState : ArenaState :=
  { playerPos := some (4, 1)
    playerDir := .left
    playerTrail := [(9, 9)]
    opponentPos := some (5, 1)
    opponentDir := .left
    opponentTrail := [(3, 1)]
    opponentDead := false
    gameOver := false
    didWin := false
    started := true
    winRecorded := false
    sector := 1 }

/-- Witness for the amended C3: on an all-empty grid the player steps onto a
trail cell and loses, while in the same tick the opponent steps onto the
player's position and is eliminated. -/
theorem arena_collision_witness :
    (stepArena c3wGrid c3wState).gameOver = true ∧
      (stepArena c3wGrid c3wState).didWin = false ∧
      (stepArena c3wGrid c3wState).playerPos = c3wState.playerPos ∧
      (stepArena c3wGrid c3wState).opponentDead = true ∧
      (stepArena c3wGrid c3wState).opponentPos = none := by
  have h := arena_collision_eliminates_except_player_hub c3wGrid c3wState rfl rfl
  have hp := h.1 (4, 1) rfl (by decide) (by decide)
  have ho := h.2 (5, 1) rfl rfl (by decide) (by decide)
  exact ⟨hp.1, hp.2.1, hp.2.2, ho.1, ho.2⟩
